import Mathlib

set_option maxRecDepth 100000

/-
  Shallow embedding of src/cache/cache-sim.c: the set-associative /
  direct-mapped engine (sim_set_associative and its helpers), the
  exact-LRU fully-associative engine (sim_fully_associative), and the
  pseudo-LRU binary-recency-tree engine (sim_fully_associative_pseudo),
  together with theorems checking the specification against the code.

  Modelling conventions:
  * C machine integers are modelled on Nat.  The hit/access counters are
    32-bit unsigned in C, and the fixed 15000000-element trace buffer plus
    the unsigned trace counter bound every run, so the counters can never
    wrap; the uint64 recency counters grow by at most one per access, so
    their increments are modelled with an explicit % 2^64 for
    faithfulness although they can never wrap either.  The one genuine
    narrowing in the source, assigning a uint64 recency value to the
    32-bit locals named lru_largest, is modelled exactly with % 2^32, and
    the unsigned (32-bit) product kb * 1024 of the ways = 1 mask
    computation carries its wrap as an explicit % 2^32.
  * C arrays indexed by set, way or tree node are modelled as total
    functions Nat -> _ (set-associative cache, pseudo-LRU array), or as a
    list for the fully-associative tag store (struct block cache[512]).
  * Fixed-bound C loops are modelled by structural recursion on an
    explicit iteration budget that equals or exceeds the C iteration
    space at every call site, so every definition evaluates by decide.
-/

inductive Op where
  | load : Op
  | store : Op
deriving DecidableEq, Repr

/-- struct Trace of the source: one memory access, an operation and a
uint32_t address (theorems add 32-bit hypotheses where width matters). -/
structure Trace where
  op : Op
  addr : Nat
deriving DecidableEq, Repr

/-- The options field of ThreadInfo: OPTION_NONE, OPTION_WRITE_ON_MISS,
OPTION_PREFETCH_ALWAYS, OPTION_PREFETCH_ON_MISS. -/
inductive Options where
  | optNone : Options
  | optWriteOnMiss : Options
  | optPrefetchAlways : Options
  | optPrefetchOnMiss : Options
deriving DecidableEq, Repr

/-- block_id_offset = 5 of the source (log2 of the 32-byte line size). -/
def block_id_offset : Nat := 5

/-- Iteration core of mylog2; the first argument is a structural bound on
the number of halvings, never reached at any call site. -/
def mylog2Go : Nat → Nat → Nat
  | 0, _ => 0
  | fuel + 1, n => if n ≤ 1 then 0 else mylog2Go fuel (n / 2) + 1

/-- mylog2 of the source: count the shifts of `while (n >>= 1) exp++`,
i.e. floor(log2 n) for n >= 1 and 0 for n = 0. -/
def mylog2 (n : Nat) : Nat := mylog2Go n n

/-- bitmask of the source: ~(UINT32_MAX << mylog2(range)) computed in
32-bit arithmetic (the complement of x in 32 bits is 2^32 - 1 - x). -/
def bitmask (range : Nat) : Nat :=
  (2 ^ 32 - 1) - (((2 ^ 32 - 1) <<< mylog2 range) % 2 ^ 32)

/-- Pointwise update of a Nat-valued array model. -/
def setNat (f : Nat → Nat) (w v : Nat) : Nat → Nat :=
  fun i => if i = w then v else f i

/-- Pointwise update of a Bool-valued array model. -/
def setBool (f : Nat → Bool) (w : Nat) (v : Bool) : Nat → Bool :=
  fun i => if i = w then v else f i

/-- struct set of the source: the 16-element tags/lru/valid arrays of one
cache set, as total functions (only indices below ways <= 16 are used). -/
structure CSet where
  tags : Nat → Nat
  lru : Nat → Nat
  valid : Nat → Bool

/-- Install a tag in slot w: tags[w] = tag, lru[w] = 0, valid[w] = true
(the common effect of both placement paths of the insert routine). -/
def writeSlot (s : CSet) (w tag : Nat) : CSet :=
  ⟨setNat s.tags w tag, setNat s.lru w 0, setBool s.valid w true⟩

/-- The scan loop of sim_set_associative_insert_tag.  fuel counts the
remaining iterations (ways - w); lb and ll are the C locals lru_way and
lru_largest (ll is a 32-bit unsigned in C, hence the % 2^32 on
assignment).  When the loop ends without finding an empty slot, the
block at lru_way is overwritten. -/
def insertLoop (s : CSet) (tag : Nat) : Nat → Nat → Nat → Nat → CSet
  | 0, _, lb, _ => writeSlot s lb tag
  | fuel + 1, w, lb, ll =>
    let lb' := if ll < s.lru w then w else lb
    let ll' := if ll < s.lru w then s.lru w % 2 ^ 32 else ll
    if s.valid w = false then writeSlot s w tag
    else insertLoop s tag fuel (w + 1) lb' ll'

/-- sim_set_associative_insert_tag of the source. -/
def sim_set_associative_insert_tag (s : CSet) (tag ways : Nat) : CSet :=
  insertLoop s tag ways 0 0 0

/-- The scan loop of sim_set_associative_do: age every counter by one,
and reset the counter of every slot whose tag matches, flagging a hit. -/
def doScanLoop (tag : Nat) : Nat → Nat → CSet → Bool → CSet × Bool
  | 0, _, s, hit => (s, hit)
  | fuel + 1, w, s, hit =>
    let s1 : CSet := { s with lru := setNat s.lru w ((s.lru w + 1) % 2 ^ 64) }
    if s1.tags w = tag then
      doScanLoop tag fuel (w + 1) { s1 with lru := setNat s1.lru w 0 } true
    else doScanLoop tag fuel (w + 1) s1 hit

/-- sim_set_associative_do of the source: scan the set, and on a miss,
unless no_modify is set, insert the tag. -/
def sim_set_associative_do (s : CSet) (tag ways : Nat) (noModify : Bool) :
    CSet × Bool :=
  let r := doScanLoop tag ways 0 s false
  if r.2 = false ∧ noModify = false then
    (sim_set_associative_insert_tag r.1 tag ways, r.2)
  else r

/-- sets = (16 * 1024) / (32 * ways) of sim_set_associative (the multi-way
set count is hardcoded to a 16 KB capacity in the source). -/
def saSets (ways : Nat) : Nat := 16 * 1024 / (32 * ways)

/-- mask of sim_set_associative: from the configured kb for ways = 1
(the product kb * 1024 is computed in 32-bit unsigned arithmetic), from
the hardcoded 16 KB set count otherwise. -/
def saMask (kb ways : Nat) : Nat :=
  if ways = 1 then bitmask (kb * 1024 % 2 ^ 32 / 32) else bitmask (saSets ways)

/-- set = (addr >> block_id_offset) & mask of sim_set_associative. -/
def saIndex (kb ways addr : Nat) : Nat :=
  (addr >>> block_id_offset) &&& saMask kb ways

/-- tag = addr >> (block_id_offset + log) of sim_set_associative (the
value used by the multi-way branch and by the prefetch access). -/
def saTag (ways addr : Nat) : Nat :=
  addr >>> (block_id_offset + mylog2 (saSets ways))

/-- tag = addr >> 10, the value the ways = 1 (direct-mapped) branch
overwrites the tag with, independent of the configured size. -/
def dmTag (addr : Nat) : Nat := addr >>> 10

/-- The cache of sim_set_associative: struct set cache[1024], zero
initialized; modelled as a total function on set indices. -/
def Cache : Type := Nat → CSet

/-- The zero-initialized cache. -/
def cache0 : Cache := fun _ => ⟨fun _ => 0, fun _ => 0, fun _ => false⟩

/-- Update one set of the cache. -/
def setCache (c : Cache) (i : Nat) (s : CSet) : Cache :=
  fun j => if j = i then s else c j

/-- One iteration of the trace loop of sim_set_associative: the ways = 1
branch is compare-or-replace on slot 0 with the fixed tag addr >> 10; the
multi-way branch runs the scan/insert routine and then possibly one
uncounted prefetch access to addr + 32. -/
def simSAStep (kb ways : Nat) (opts : Options) (c : Cache) (hits : Nat)
    (t : Trace) : Cache × Nat :=
  let addr := t.addr
  let set := saIndex kb ways addr
  if ways = 1 then
    if (c set).tags 0 = dmTag addr then (c, hits + 1)
    else
      (setCache c set { c set with tags := setNat (c set).tags 0 (dmTag addr) },
       hits)
  else
    let r := sim_set_associative_do (c set) (saTag ways addr) ways
      (decide (opts = Options.optWriteOnMiss ∧ t.op = Op.store))
    let c' := setCache c set r.1
    let hits' := hits + (if r.2 then 1 else 0)
    if opts = Options.optPrefetchAlways ∨
        (opts = Options.optPrefetchOnMiss ∧ r.2 = false) then
      let set2 := saIndex kb ways (addr + 32)
      let r2 := sim_set_associative_do (c' set2) (saTag ways (addr + 32)) ways false
      (setCache c' set2 r2.1, hits')
    else (c', hits')

/-- The trace loop of sim_set_associative, accumulating the hit counter. -/
def simSAGo (kb ways : Nat) (opts : Options) : Cache → Nat → List Trace → Nat
  | _, hits, [] => hits
  | c, hits, t :: ts =>
    let r := simSAStep kb ways opts c hits t
    simSAGo kb ways opts r.1 r.2 ts

/-- sim_set_associative of the source: replay the trace against a fresh
zeroed cache; the result is (hits, accesses), with accesses set to the
trace length exactly as i->accesses = g_traces_amt. -/
def sim_set_associative (kb ways : Nat) (opts : Options)
    (traces : List Trace) : Nat × Nat :=
  (simSAGo kb ways opts cache0 0 traces, traces.length)

/-- The unrolled search loop of sim_fully_associative over
struct block cache[512] (pairs of tag and lru): age every block; the
first match (and only the first, because of the !hit guard) resets its
counter and flags the hit. -/
def faScan (tag : Nat) : List (Nat × Nat) → Bool → List (Nat × Nat) × Bool
  | [], hit => ([], hit)
  | c :: rest, hit =>
    if hit = false ∧ c.1 = tag then
      let r := faScan tag rest true
      ((c.1, 0) :: r.1, r.2)
    else
      let r := faScan tag rest hit
      ((c.1, (c.2 + 1) % 2 ^ 64) :: r.1, r.2)

/-- The unrolled victim loop of sim_fully_associative: w is the absolute
block index, lb and ll are the C locals lru_block and lru_largest (the
latter a 32-bit unsigned).  Each block first updates the running maximum
and is then tested for emptiness via tag == 0; the first empty block
receives the tag and the loop breaks, reporting hasempty. -/
def faInsertScan (tag : Nat) :
    List (Nat × Nat) → Nat → Nat → Nat → List (Nat × Nat) × Bool × Nat × Nat
  | [], _, lb, ll => ([], false, lb, ll)
  | c :: rest, w, lb, ll =>
    let lb' := if ll < c.2 then w else lb
    let ll' := if ll < c.2 then c.2 % 2 ^ 32 else ll
    if c.1 = 0 then ((tag, 0) :: rest, true, lb', ll')
    else
      let r := faInsertScan tag rest (w + 1) lb' ll'
      (c :: r.1, r.2.1, r.2.2.1, r.2.2.2)

/-- The whole miss path of sim_fully_associative: run the victim loop; if
no empty (tag == 0) block was found, overwrite the block at lru_block. -/
def faInsertFull (tag : Nat) (st : List (Nat × Nat)) : List (Nat × Nat) :=
  let r := faInsertScan tag st 0 0 0
  if r.2.1 then r.1 else r.1.set r.2.2.1 (tag, 0)

/-- One iteration of the trace loop of sim_fully_associative. -/
def faStep (st : List (Nat × Nat)) (hits : Nat) (t : Trace) :
    List (Nat × Nat) × Nat :=
  let tag := t.addr >>> block_id_offset
  let r := faScan tag st false
  if r.2 then (r.1, hits + 1) else (faInsertFull tag r.1, hits)

/-- The trace loop of sim_fully_associative, carrying the tag store and
the hit counter exactly as the C loop does. -/
def faRun : List (Nat × Nat) → Nat → List Trace → List (Nat × Nat) × Nat
  | st, hits, [] => (st, hits)
  | st, hits, t :: ts =>
    let r := faStep st hits t
    faRun r.1 r.2 ts

/-- The zero-initialized block array of sim_fully_associative. -/
def faInit : List (Nat × Nat) := List.replicate 512 (0, 0)

/-- sim_fully_associative of the source: 512 zero-initialized blocks;
returns (hits, accesses = trace length). -/
def sim_fully_associative (traces : List Trace) : Nat × Nat :=
  ((faRun faInit 0 traces).2, traces.length)

/-- The hit-search loop of sim_fully_associative_pseudo over the leaves
511..1022 of the combined lru/tag array; fuel 512 covers the loop bound
block < 1023 exactly. -/
def plFindGo (c : Nat → Nat) (tag : Nat) : Nat → Nat → Option Nat
  | 0, _ => none
  | fuel + 1, block =>
    if c block = tag then some block else plFindGo c tag fuel (block + 1)

/-- The hit-path do/while of sim_fully_associative_pseudo: from node
block, write into the parent the bit pointing away from the visited
child (0 when coming from an odd = left child, 1 from an even = right
child) and climb, stopping after writing the root.  The structural fuel
equals the starting node, far above the at most 9 climb steps any leaf
needs. -/
def plUpGo : (Nat → Nat) → Nat → Nat → (Nat → Nat)
  | c, 0, _ => c
  | c, fuel + 1, block =>
    let c' := setNat c ((block - 1) / 2) (if block % 2 = 1 then 0 else 1)
    if (block - 1) / 2 = 0 then c' else plUpGo c' fuel ((block - 1) / 2)

/-- The hit update of sim_fully_associative_pseudo at a leaf. -/
def plHitUpdate (c : Nat → Nat) (block : Nat) : Nat → Nat :=
  plUpGo c block block

/-- The logical negation !x of a uint64 in C: 1 when x = 0, else 0. -/
def flipBit (x : Nat) : Nat := if x = 0 then 1 else 0

/-- The miss-path descent loop of sim_fully_associative_pseudo: flip each
visited bit and step to 2*tmp+1 when the new bit is 0, else to 2*tmp+2,
until a leaf index (>= 511) is reached.  Fuel 511 far exceeds the 9
levels of the tree. -/
def plDownGo : (Nat → Nat) → Nat → Nat → (Nat → Nat) × Nat
  | c, 0, tmp => (c, tmp)
  | c, fuel + 1, tmp =>
    if tmp < 511 then
      let nb := flipBit (c tmp)
      plDownGo (setNat c tmp nb) fuel (2 * tmp + (if nb = 0 then 1 else 2))
    else (c, tmp)

/-- The full descent of the miss path, from the root. -/
def plDescendFull (c : Nat → Nat) : (Nat → Nat) × Nat := plDownGo c 511 0

/-- One iteration of the trace loop of sim_fully_associative_pseudo: on a
hit (the counter bumps and hit becomes true, modelling
hit = (i->hits++ - i->hits), whose intended value is nonzero), update the
path; on a miss, descend and install the tag at the reached leaf. -/
def plStep (c : Nat → Nat) (hits : Nat) (t : Trace) : (Nat → Nat) × Nat :=
  let tag := t.addr >>> block_id_offset
  match plFindGo c tag 512 511 with
  | some block => (plHitUpdate c block, hits + 1)
  | none =>
    let r := plDescendFull c
    (setNat r.1 r.2 tag, hits)

/-- The trace loop of sim_fully_associative_pseudo. -/
def plGo : (Nat → Nat) → Nat → List Trace → Nat
  | _, hits, [] => hits
  | c, hits, t :: ts =>
    let r := plStep c hits t
    plGo r.1 r.2 ts

/-- sim_fully_associative_pseudo of the source: the 1024-entry array
uint64_t lru_cache[1024] starts all zero; returns (hits, accesses). -/
def sim_fully_associative_pseudo (traces : List Trace) : Nat × Nat :=
  (plGo (fun _ => 0) 0 traces, traces.length)

/-
  Specification-side definitions.  These follow the wording of the
  specification (not the code) and exist to be compared with the
  definitions above: the claim-level fully-associative engine with real
  validity flags, the abstract direct-mapped view used for the size
  monotonicity proof, and the path/walk description of the pseudo-LRU
  tree algorithm.
-/

/-- Follows the specification wording for the exact-LRU fully-associative
engine, hit path: scan all slots aging every counter; a valid slot
holding the tag is a hit and has its counter reset.  Slots are
(tag, recency, valid) triples. -/
def claimFAScan (tag : Nat) :
    List (Nat × Nat × Bool) → Bool → List (Nat × Nat × Bool) × Bool
  | [], hit => ([], hit)
  | c :: rest, hit =>
    if hit = false ∧ c.2.2 = true ∧ c.1 = tag then
      let r := claimFAScan tag rest true
      ((c.1, 0, c.2.2) :: r.1, r.2)
    else
      let r := claimFAScan tag rest hit
      ((c.1, c.2.1 + 1, c.2.2) :: r.1, r.2)

/-- Position of the first invalid slot, if any (specification side). -/
def claimFAFirstInvalid : List (Nat × Nat × Bool) → Option Nat
  | [] => none
  | c :: rest =>
    if c.2.2 = false then some 0 else (claimFAFirstInvalid rest).map (· + 1)

/-- Position of the slot with the maximum recency counter, ties broken by
the lowest scanned index (specification side). -/
def claimFAVictim : List (Nat × Nat × Bool) → Nat → Nat → Nat → Nat
  | [], _, lb, _ => lb
  | c :: rest, w, lb, ll =>
    if ll < c.2.1 then claimFAVictim rest (w + 1) w c.2.1
    else claimFAVictim rest (w + 1) lb ll

/-- Follows the specification wording for the exact-LRU miss path:
allocate into the first invalid slot found; if none, evict the slot with
the maximum recency counter (ties: lowest scanned index). -/
def claimFAAlloc (tag : Nat) (st : List (Nat × Nat × Bool)) :
    List (Nat × Nat × Bool) :=
  match claimFAFirstInvalid st with
  | some j => st.set j (tag, 0, true)
  | none => st.set (claimFAVictim st 0 0 0) (tag, 0, true)

/-- One access of the specification-level exact-LRU engine. -/
def claimFAStep (st : List (Nat × Nat × Bool)) (hits : Nat) (t : Trace) :
    List (Nat × Nat × Bool) × Nat :=
  let tag := t.addr >>> block_id_offset
  let r := claimFAScan tag st false
  if r.2 then (r.1, hits + 1) else (claimFAAlloc tag r.1, hits)

/-- The replay loop of the specification-level exact-LRU engine. -/
def claimFARun :
    List (Nat × Nat × Bool) → Nat → List Trace → List (Nat × Nat × Bool) × Nat
  | st, hits, [] => (st, hits)
  | st, hits, t :: ts =>
    let r := claimFAStep st hits t
    claimFARun r.1 r.2 ts

/-- The empty 512-slot specification-level cache: all slots invalid. -/
def claimFAInit : List (Nat × Nat × Bool) := List.replicate 512 (0, 0, false)

/-- Full replay of the specification-level exact-LRU engine (512 blocks,
as for the 16 KB / 32-byte configuration of the code). -/
def sim_fully_associative_claim (traces : List Trace) : Nat × Nat :=
  ((claimFARun claimFAInit 0 traces).2, traces.length)

/-- k-fold parent in the pseudo-LRU tree: anc b 0 = b,
anc b (k+1) = (anc b k - 1) / 2. -/
def anc : Nat → Nat → Nat
  | b, 0 => b
  | b, k + 1 => (anc b k - 1) / 2

/-- The child the node's bit marks as stale (specification wording): bit 0
means the right subtree (2n+2) is stale, a nonzero bit means the left
subtree (2n+1) is stale. -/
def staleChild (c : Nat → Nat) (n : Nat) : Nat :=
  if c n = 0 then 2 * n + 2 else 2 * n + 1

/-- Follow the stale directions from node n until a leaf (index >= 511)
is reached, reading the bits of the unmodified tree. -/
def walkGo (c : Nat → Nat) : Nat → Nat → Nat
  | 0, n => n
  | fuel + 1, n => if n < 511 then walkGo c fuel (staleChild c n) else n

/-- The pseudo-LRU victim leaf described by the specification: from the
root, repeatedly follow each node's bit toward its stale subtree. -/
def specWalk (c : Nat → Nat) : Nat := walkGo c 511 0

/-- The internal nodes visited by the stale walk from node n. -/
def pathGo (c : Nat → Nat) : Nat → Nat → List Nat
  | 0, _ => []
  | fuel + 1, n => if n < 511 then n :: pathGo c fuel (staleChild c n) else []

/-- The internal nodes visited by the stale walk from the root. -/
def specPath (c : Nat → Nat) : List Nat := pathGo c 511 0

/-- Abstract view of a direct-mapped (ways = 1) cache: the tag stored in
slot 0 of every set. -/
def dmAbs (c : Cache) : Nat → Nat := fun i => (c i).tags 0

/-- The ways = 1 replay loop on the abstract view: compare-or-replace on
the tag addr >> 10 at set (addr >> 5) & mask. -/
def dmGo (mask : Nat) : (Nat → Nat) → Nat → List Trace → Nat
  | _, hits, [] => hits
  | st, hits, t :: ts =>
    let set := (t.addr >>> block_id_offset) &&& mask
    let tag := t.addr >>> 10
    if st set = tag then dmGo mask st (hits + 1) ts
    else dmGo mask (setNat st set tag) hits ts

/-- The trace refuting the first-invalid-slot reading of the
fully-associative miss path: 512 loads with the distinct nonzero tags
1..512 fill every block; the load of address 0 (tag 0) then evicts the
least recently used block 0 and caches tag 0 there; the load of address
19200 (tag 600) misses, and the code treats the valid tag-0 block as
empty and overwrites block 0 instead of evicting the least recently used
block 1, so the final load of address 64 (tag 2) still hits in the code
while a first-invalid-slot engine would have evicted it. -/
def c6fill : List Trace := (List.range 512).map fun k => ⟨Op.load, 32 * (k + 1)⟩

/-- The three probe accesses after the fill. -/
def c6tail : List Trace := [⟨Op.load, 0⟩, ⟨Op.load, 19200⟩, ⟨Op.load, 64⟩]

/-- The complete 515-access counterexample trace. -/
def c6trace : List Trace := c6fill ++ c6tail

/-- The one real (counted) access of a multi-way trace-loop iteration:
the scan/insert routine applied to the set of the accessed address, with
no_modify exactly when the policy is OPTION_WRITE_ON_MISS and the access
is a STORE. -/
def saRealDo (kb ways : Nat) (opts : Options) (c : Cache) (t : Trace) :
    CSet × Bool :=
  sim_set_associative_do (c (saIndex kb ways t.addr)) (saTag ways t.addr) ways
    (decide (opts = Options.optWriteOnMiss ∧ t.op = Op.store))

/-- The cache after the real access of one multi-way iteration. -/
def saAfterReal (kb ways : Nat) (opts : Options) (c : Cache) (t : Trace) :
    Cache :=
  setCache c (saIndex kb ways t.addr) (saRealDo kb ways opts c t).1

/-- The uncounted prefetch access: the same scan/insert routine applied
to the set of addr + 32 with its tag, never suppressed (no_modify is
false), leaving every counter alone. -/
def saPrefetchApply (kb ways : Nat) (c : Cache) (addr : Nat) : Cache :=
  setCache c (saIndex kb ways (addr + 32))
    (sim_set_associative_do (c (saIndex kb ways (addr + 32)))
      (saTag ways (addr + 32)) ways false).1

/-- The tag store of the exact-LRU engine after the first k accesses of
the counterexample fill (loads of tags 1..k): block j < k caches tag
j + 1 with recency k - 1 - j, every later block is untouched with tag 0
and recency k. -/
def fillSt (k : Nat) : List (Nat × Nat) :=
  (List.range 512).map fun j => if j < k then (j + 1, k - 1 - j) else (0, k)

/-- The specification-level cache after the same fill prefix: identical
tags and counters, with genuine validity flags. -/
def claimFillSt (k : Nat) : List (Nat × Nat × Bool) :=
  (List.range 512).map fun j =>
    if j < k then (j + 1, k - 1 - j, true) else (0, k, false)

/-
  Theorems.  Each claim Cn of the specification review is settled by one
  theorem named Cn_...; auxiliary lemmas carry no claim names.
-/

theorem simSAStep_snd_le (kb ways : Nat) (opts : Options) (c : Cache)
    (hits : Nat) (t : Trace) : (simSAStep kb ways opts c hits t).2 ≤ hits + 1 := by
  unfold simSAStep
  dsimp only
  split
  · split <;> simp
  · split <;> dsimp only <;> split <;> simp

theorem simSAGo_le (kb ways : Nat) (opts : Options) :
    ∀ (ts : List Trace) (c : Cache) (hits : Nat),
      simSAGo kb ways opts c hits ts ≤ hits + ts.length := by
  intro ts
  induction ts with
  | nil => intro c hits; simp [simSAGo]
  | cons t ts ih =>
    intro c hits
    have h1 := simSAStep_snd_le kb ways opts c hits t
    have h2 := ih (simSAStep kb ways opts c hits t).1
      (simSAStep kb ways opts c hits t).2
    simp only [simSAGo, List.length_cons]
    omega

theorem faStep_snd_le (st : List (Nat × Nat)) (hits : Nat) (t : Trace) :
    (faStep st hits t).2 ≤ hits + 1 := by
  unfold faStep
  dsimp only
  split <;> simp

theorem faRun_snd_le :
    ∀ (ts : List Trace) (st : List (Nat × Nat)) (hits : Nat),
      (faRun st hits ts).2 ≤ hits + ts.length := by
  intro ts
  induction ts with
  | nil => intro st hits; simp [faRun]
  | cons t ts ih =>
    intro st hits
    have h1 := faStep_snd_le st hits t
    have h2 := ih (faStep st hits t).1 (faStep st hits t).2
    simp only [faRun, List.length_cons]
    omega

theorem plStep_snd_le (c : Nat → Nat) (hits : Nat) (t : Trace) :
    (plStep c hits t).2 ≤ hits + 1 := by
  unfold plStep
  dsimp only
  split <;> simp

theorem plGo_le :
    ∀ (ts : List Trace) (c : Nat → Nat) (hits : Nat),
      plGo c hits ts ≤ hits + ts.length := by
  intro ts
  induction ts with
  | nil => intro c hits; simp [plGo]
  | cons t ts ih =>
    intro c hits
    have h1 := plStep_snd_le c hits t
    have h2 := ih (plStep c hits t).1 (plStep c hits t).2
    simp only [plGo, List.length_cons]
    omega

/-- C1: the specification's worked scenario demands hits = 1 and
accesses = 4 for the trace Load 0x0, Load 0x0, Load 0x20, Load 0x0 on a
fresh 16 KB direct-mapped cache; the code instead reports hits = 4,
because every one of these accesses has tag addr >> 10 = 0 and the
zero-initialized tag array matches tag 0 without any validity check, so
even the three cold accesses count as hits.  This theorem evaluates the
engine at the failing input. -/
theorem C1_worked_scenario_evaluation :
    sim_set_associative 16 1 Options.optNone
      [⟨Op.load, 0x0⟩, ⟨Op.load, 0x0⟩, ⟨Op.load, 0x20⟩, ⟨Op.load, 0x0⟩] =
      (4, 4) ∧
    saIndex 16 1 0x20 = 1 ∧ saIndex 16 1 0x0 = 0 := by
  refine ⟨by decide, by decide, by decide⟩

/-- C2: for every engine variant (direct-mapped and set-associative of
any positive way count under every option, exact-LRU fully-associative,
pseudo-LRU fully-associative) and every trace, the reported accesses
counter equals the trace length and the hit counter is at most the
accesses counter. -/
theorem C2_accesses_eq_length_and_hits_le (kb ways : Nat) (opts : Options)
    (traces : List Trace) (_hways : 1 ≤ ways) :
    ((sim_set_associative kb ways opts traces).2 = traces.length ∧
      (sim_set_associative kb ways opts traces).1 ≤
        (sim_set_associative kb ways opts traces).2) ∧
    ((sim_fully_associative traces).2 = traces.length ∧
      (sim_fully_associative traces).1 ≤ (sim_fully_associative traces).2) ∧
    ((sim_fully_associative_pseudo traces).2 = traces.length ∧
      (sim_fully_associative_pseudo traces).1 ≤
        (sim_fully_associative_pseudo traces).2) := by
  refine ⟨⟨rfl, ?_⟩, ⟨rfl, ?_⟩, ⟨rfl, ?_⟩⟩
  · simpa using simSAGo_le kb ways opts traces cache0 0
  · simpa using faRun_snd_le traces faInit 0
  · simpa using plGo_le traces (fun _ => 0) 0

/-- Closed instance of the counter theorem at a concrete configuration
and trace. -/
theorem C2_accesses_eq_length_and_hits_le_witness :
    (sim_set_associative 16 2 Options.optNone [⟨Op.load, 0⟩, ⟨Op.store, 64⟩]).2 =
      2 ∧
    (sim_set_associative 16 2 Options.optNone [⟨Op.load, 0⟩, ⟨Op.store, 64⟩]).1 ≤
      (sim_set_associative 16 2 Options.optNone [⟨Op.load, 0⟩, ⟨Op.store, 64⟩]).2 :=
  ⟨(C2_accesses_eq_length_and_hits_le 16 2 Options.optNone
      [⟨Op.load, 0⟩, ⟨Op.store, 64⟩] (by decide)).1.1,
   (C2_accesses_eq_length_and_hits_le 16 2 Options.optNone
      [⟨Op.load, 0⟩, ⟨Op.store, 64⟩] (by decide)).1.2⟩


theorem simSAGo_nil (kb ways : Nat) (opts : Options) (c : Cache)
    (hits : Nat) : simSAGo kb ways opts c hits [] = hits := rfl

theorem simSAGo_cons (kb ways : Nat) (opts : Options) (c : Cache)
    (hits : Nat) (t : Trace) (ts : List Trace) :
    simSAGo kb ways opts c hits (t :: ts) =
      simSAGo kb ways opts (simSAStep kb ways opts c hits t).1
        (simSAStep kb ways opts c hits t).2 ts := by
  simp only [simSAGo]

theorem doScanLoop_true_snd (tag : Nat) :
    ∀ (fuel w : Nat) (s : CSet), (doScanLoop tag fuel w s true).2 = true := by
  intro fuel
  induction fuel with
  | zero => intro w s; rfl
  | succ fuel ih =>
    intro w s
    unfold doScanLoop
    dsimp only
    split
    · exact ih (w + 1) _
    · exact ih (w + 1) _

theorem doScanLoop_hit_head (tag ways : Nat) (s : CSet)
    (h : s.tags 0 = tag) (hw : 1 ≤ ways) :
    (doScanLoop tag ways 0 s false).2 = true := by
  obtain ⟨fuel, rfl⟩ : ∃ fuel, ways = fuel + 1 :=
    ⟨ways - 1, by omega⟩
  unfold doScanLoop
  dsimp only
  rw [if_pos h]
  exact doScanLoop_true_snd tag fuel 1 _

theorem do_hit_snd (s : CSet) (tag ways : Nat) (nm : Bool)
    (h : s.tags 0 = tag) (hw : 1 ≤ ways) :
    (sim_set_associative_do s tag ways nm).2 = true := by
  unfold sim_set_associative_do
  dsimp only
  rw [if_neg]
  · exact doScanLoop_hit_head tag ways s h hw
  · rw [doScanLoop_hit_head tag ways s h hw]
    simp

theorem simSAStep_hit_snd (kb ways : Nat) (opts : Options) (c : Cache)
    (hits : Nat) (t : Trace) (hne : ways ≠ 1)
    (h : (sim_set_associative_do (c (saIndex kb ways t.addr))
      (saTag ways t.addr) ways
      (decide (opts = Options.optWriteOnMiss ∧ t.op = Op.store))).2 = true) :
    (simSAStep kb ways opts c hits t).2 = hits + 1 := by
  unfold simSAStep
  dsimp only
  rw [if_neg hne]
  rw [h]
  split <;> simp

theorem faScan_true_snd (tag : Nat) :
    ∀ l : List (Nat × Nat), (faScan tag l true).2 = true := by
  intro l
  induction l with
  | nil => rfl
  | cons c rest ih =>
    unfold faScan
    dsimp only
    rw [if_neg (by simp)]
    exact ih

/-- C3: on a freshly constructed cache, the first access to any address
whose computed tag is 0 counts as a hit in all four engines, because all
state is zero-initialized and the tag comparison never consults a
validity flag: the direct-mapped branch (tag addr >> 10), the multi-way
scan (tag addr >> (5 + log2 sets)), the fully-associative scan and the
pseudo-LRU leaf search (tag addr >> 5). -/
theorem C3_zero_tag_first_access_hits (kb addr : Nat) (op : Op)
    (opts : Options) :
    (dmTag addr = 0 →
      (sim_set_associative kb 1 opts [⟨op, addr⟩]).1 = 1) ∧
    (∀ k : Nat, 1 ≤ k → k ≤ 4 → saTag (2 ^ k) addr = 0 →
      (sim_set_associative kb (2 ^ k) opts [⟨op, addr⟩]).1 = 1) ∧
    (addr >>> block_id_offset = 0 →
      (sim_fully_associative [⟨op, addr⟩]).1 = 1) ∧
    (addr >>> block_id_offset = 0 →
      (sim_fully_associative_pseudo [⟨op, addr⟩]).1 = 1) := by
  refine ⟨?_, ?_, ?_, ?_⟩
  · intro h
    simp [sim_set_associative, simSAGo, simSAStep, cache0, h]
  · intro k hk1 _hk4 h
    have hne : ¬(2 ^ k = 1) := by
      have : 2 ^ 1 ≤ 2 ^ k := Nat.pow_le_pow_right (by omega) hk1
      omega
    have hstep := simSAStep_hit_snd kb (2 ^ k) opts cache0 0 ⟨op, addr⟩ hne
      (do_hit_snd _ _ _ _ (by simpa [cache0] using h.symm) Nat.one_le_two_pow)
    show simSAGo kb (2 ^ k) opts cache0 0 [⟨op, addr⟩] = 1
    rw [simSAGo_cons, simSAGo_nil]
    exact hstep
  · intro h
    have hs : (faScan (addr >>> block_id_offset) faInit false).2 = true := by
      rw [show faInit = (0, 0) :: List.replicate 511 (0, 0) from rfl]
      unfold faScan
      dsimp only
      rw [if_pos (by simp [h])]
      exact faScan_true_snd _ _
    have hstep : (faStep faInit 0 ⟨op, addr⟩).2 = 1 := by
      unfold faStep
      dsimp only
      rw [if_pos hs]
    simp only [sim_fully_associative, faRun, hstep]
  · intro h
    have hf : plFindGo (fun _ => 0) (addr >>> block_id_offset) 512 511 =
        some 511 := by
      rw [show (512 : Nat) = 511 + 1 from rfl]
      unfold plFindGo
      simp [h]
    have hstep : (plStep (fun _ => 0) 0 ⟨op, addr⟩).2 = 1 := by
      unfold plStep
      dsimp only
      rw [hf]
    simp only [sim_fully_associative_pseudo, plGo, hstep]

/-- Closed instance of the zero-tag first-access theorem at address 0. -/
theorem C3_zero_tag_first_access_hits_witness :
    (sim_set_associative 16 1 Options.optNone [⟨Op.load, 0⟩]).1 = 1 ∧
    (sim_set_associative 16 (2 ^ 1) Options.optNone [⟨Op.load, 0⟩]).1 = 1 ∧
    (sim_fully_associative [⟨Op.load, 0⟩]).1 = 1 ∧
    (sim_fully_associative_pseudo [⟨Op.load, 0⟩]).1 = 1 :=
  ⟨(C3_zero_tag_first_access_hits 16 0 Op.load Options.optNone).1 (by decide),
   (C3_zero_tag_first_access_hits 16 0 Op.load Options.optNone).2.1 1
     (by decide) (by decide) (by decide),
   (C3_zero_tag_first_access_hits 16 0 Op.load Options.optNone).2.2.1 (by decide),
   (C3_zero_tag_first_access_hits 16 0 Op.load Options.optNone).2.2.2 (by decide)⟩

theorem doScanLoop_miss (tag : Nat) :
    ∀ (fuel w : Nat) (s : CSet) (hit : Bool),
      (∀ j, w ≤ j → j < w + fuel → s.tags j ≠ tag) →
      doScanLoop tag fuel w s hit =
        (⟨s.tags,
          fun i => if w ≤ i ∧ i < w + fuel then (s.lru i + 1) % 2 ^ 64 else s.lru i,
          s.valid⟩, hit) := by
  intro fuel
  induction fuel with
  | zero =>
    intro w s hit _
    have hl : (fun i => if w ≤ i ∧ i < w + 0 then (s.lru i + 1) % 2 ^ 64
        else s.lru i) = s.lru := by
      funext i
      rw [if_neg (by omega)]
    rw [show doScanLoop tag 0 w s hit = (s, hit) from rfl, hl]
  | succ fuel ih =>
    intro w s hit hmiss
    unfold doScanLoop
    dsimp only
    rw [if_neg (hmiss w (le_refl w) (by omega))]
    rw [ih (w + 1) ⟨s.tags, setNat s.lru w ((s.lru w + 1) % 2 ^ 64), s.valid⟩
      hit (fun j h1 h2 => hmiss j (by omega) (by omega))]
    have hl : (fun i => if w + 1 ≤ i ∧ i < w + 1 + fuel then
          (setNat s.lru w ((s.lru w + 1) % 2 ^ 64) i + 1) % 2 ^ 64
        else setNat s.lru w ((s.lru w + 1) % 2 ^ 64) i) =
        (fun i => if w ≤ i ∧ i < w + (fuel + 1) then (s.lru i + 1) % 2 ^ 64
        else s.lru i) := by
      funext i
      by_cases hiw : i = w
      · subst hiw
        rw [if_neg (by omega), if_pos ⟨le_refl i, by omega⟩]
        simp [setNat]
      · simp only [setNat, if_neg hiw]
        by_cases hin : w + 1 ≤ i ∧ i < w + 1 + fuel
        · rw [if_pos hin, if_pos (by omega)]
        · rw [if_neg hin, if_neg (by omega)]
    rw [hl]

theorem do_snd_eq_scan (s : CSet) (tag ways : Nat) (nm : Bool) :
    (sim_set_associative_do s tag ways nm).2 =
      (doScanLoop tag ways 0 s false).2 := by
  unfold sim_set_associative_do
  dsimp only
  split <;> rfl

theorem do_miss_snd (s : CSet) (tag ways : Nat) (nm : Bool)
    (hmiss : ∀ j, j < ways → s.tags j ≠ tag) :
    (sim_set_associative_do s tag ways nm).2 = false := by
  rw [do_snd_eq_scan]
  rw [doScanLoop_miss tag ways 0 s false (fun j _ h2 => hmiss j (by omega))]

theorem simSAStep_snd_eq (kb ways : Nat) (opts : Options) (c : Cache)
    (hits : Nat) (t : Trace) (hne : ways ≠ 1) :
    (simSAStep kb ways opts c hits t).2 =
      hits + (if (sim_set_associative_do (c (saIndex kb ways t.addr))
        (saTag ways t.addr) ways
        (decide (opts = Options.optWriteOnMiss ∧ t.op = Op.store))).2
        then 1 else 0) := by
  unfold simSAStep
  dsimp only
  rw [if_neg hne]
  split <;> rfl

/-- C8: under the no-write-allocate write policy a STORE that misses only
scans its set, aging all its recency counters, and changes no tag and no
valid flag anywhere in the cache (first two conjuncts: the scan routine
under no_modify, and one whole engine step under OPTION_WRITE_ON_MISS);
consequently a trace Store A, Load A on the empty cache misses twice,
giving hits = 0 and accesses = 2 (third conjunct, for any multi-way
configuration and any address whose tag is nonzero, so that the
zero-initialized tag store does not spuriously hit). -/
theorem C8_no_write_allocate_on_store_miss :
    (∀ (s : CSet) (tag ways : Nat), (∀ j, j < ways → s.tags j ≠ tag) →
      sim_set_associative_do s tag ways true =
        (⟨s.tags,
          fun i => if 0 ≤ i ∧ i < 0 + ways then (s.lru i + 1) % 2 ^ 64 else s.lru i,
          s.valid⟩, false)) ∧
    (∀ (kb ways : Nat) (c : Cache) (hits : Nat) (t : Trace),
      ways ≠ 1 → t.op = Op.store →
      (∀ j, j < ways → (c (saIndex kb ways t.addr)).tags j ≠ saTag ways t.addr) →
      (simSAStep kb ways Options.optWriteOnMiss c hits t).2 = hits ∧
      ∀ j, ((simSAStep kb ways Options.optWriteOnMiss c hits t).1 j).tags =
          (c j).tags ∧
        ((simSAStep kb ways Options.optWriteOnMiss c hits t).1 j).valid =
          (c j).valid) ∧
    (∀ (kb k addr : Nat), 1 ≤ k → k ≤ 4 → saTag (2 ^ k) addr ≠ 0 →
      sim_set_associative kb (2 ^ k) Options.optWriteOnMiss
        [⟨Op.store, addr⟩, ⟨Op.load, addr⟩] = (0, 2)) := by
  have hframe : ∀ (s : CSet) (tag ways : Nat),
      (∀ j, j < ways → s.tags j ≠ tag) →
      sim_set_associative_do s tag ways true =
        (⟨s.tags,
          fun i => if 0 ≤ i ∧ i < 0 + ways then (s.lru i + 1) % 2 ^ 64 else s.lru i,
          s.valid⟩, false) := by
    intro s tag ways hmiss
    unfold sim_set_associative_do
    dsimp only
    rw [doScanLoop_miss tag ways 0 s false (fun j _ h2 => hmiss j (by omega))]
    rw [if_neg (by simp)]
  have hstep : ∀ (kb ways : Nat) (c : Cache) (hits : Nat) (t : Trace),
      ways ≠ 1 → t.op = Op.store →
      (∀ j, j < ways → (c (saIndex kb ways t.addr)).tags j ≠ saTag ways t.addr) →
      (simSAStep kb ways Options.optWriteOnMiss c hits t).2 = hits ∧
      ∀ j, ((simSAStep kb ways Options.optWriteOnMiss c hits t).1 j).tags =
          (c j).tags ∧
        ((simSAStep kb ways Options.optWriteOnMiss c hits t).1 j).valid =
          (c j).valid := by
    intro kb ways c hits t hne hop hmiss
    have hdec : decide (Options.optWriteOnMiss = Options.optWriteOnMiss ∧
        t.op = Op.store) = true := by simp [hop]
    constructor
    · rw [simSAStep_snd_eq kb ways _ c hits t hne, hdec,
        do_miss_snd _ _ _ _ hmiss]
      simp
    · intro j
      unfold simSAStep
      dsimp only
      rw [if_neg hne, hdec, hframe _ _ _ hmiss]
      rw [if_neg (by simp)]
      dsimp only [setCache]
      by_cases hj : j = saIndex kb ways t.addr
      · subst hj
        rw [if_pos rfl]
        exact ⟨rfl, rfl⟩
      · rw [if_neg hj]
        exact ⟨rfl, rfl⟩
  refine ⟨hframe, hstep, ?_⟩
  intro kb k addr hk1 _hk4 htag
  have hne : (2 : Nat) ^ k ≠ 1 := by
    have : 2 ^ 1 ≤ 2 ^ k := Nat.pow_le_pow_right (by omega) hk1
    omega
  have hmiss0 : ∀ j, j < 2 ^ k →
      (cache0 (saIndex kb (2 ^ k) addr)).tags j ≠ saTag (2 ^ k) addr := by
    intro j _
    simpa [cache0] using fun hc => htag hc.symm
  have h1 := hstep kb (2 ^ k) cache0 0 ⟨Op.store, addr⟩ hne rfl hmiss0
  have hmiss1 : ∀ j, j < 2 ^ k →
      ((simSAStep kb (2 ^ k) Options.optWriteOnMiss cache0 0
        ⟨Op.store, addr⟩).1 (saIndex kb (2 ^ k) addr)).tags j ≠
        saTag (2 ^ k) addr := by
    intro j hj
    rw [(h1.2 (saIndex kb (2 ^ k) addr)).1]
    exact hmiss0 j hj
  have h2 : (simSAStep kb (2 ^ k) Options.optWriteOnMiss
      (simSAStep kb (2 ^ k) Options.optWriteOnMiss cache0 0
        ⟨Op.store, addr⟩).1
      (simSAStep kb (2 ^ k) Options.optWriteOnMiss cache0 0
        ⟨Op.store, addr⟩).2 ⟨Op.load, addr⟩).2 = 0 := by
    rw [simSAStep_snd_eq _ _ _ _ _ _ hne]
    rw [do_miss_snd _ _ _ _ hmiss1]
    simp [h1.1]
  show (simSAGo kb (2 ^ k) Options.optWriteOnMiss cache0 0
    [⟨Op.store, addr⟩, ⟨Op.load, addr⟩], 2) = (0, 2)
  rw [simSAGo_cons, simSAGo_cons, simSAGo_nil, h2]

/-- Closed instance of the no-write-allocate theorem: the two scan-frame
conjuncts applied to a concrete one-way set and the two-access trace at a
concrete configuration. -/
theorem C8_no_write_allocate_on_store_miss_witness :
    sim_set_associative 16 (2 ^ 1) Options.optWriteOnMiss
      [⟨Op.store, 0x4000⟩, ⟨Op.load, 0x4000⟩] = (0, 2) :=
  C8_no_write_allocate_on_store_miss.2.2 16 1 0x4000 (by decide) (by decide)
    (by decide)

/-- C9: in the multi-way engine, one trace-loop iteration decomposes per
prefetch policy as follows.  Under OPTION_PREFETCH_ALWAYS it is the real
access followed by exactly one extra access to addr + 32, processed by
the same scan/allocate routine on that address's own set, and the hit
counter advances only by the real access's outcome (the accesses counter
is written once, outside the loop, as the trace length).  Under
OPTION_PREFETCH_ON_MISS the extra access happens exactly when the real
access missed.  Under OPTION_NONE and OPTION_WRITE_ON_MISS no extra
access is ever issued. -/
theorem C9_prefetch_policy_decomposition (kb ways : Nat) (c : Cache)
    (hits : Nat) (t : Trace) (hne : ways ≠ 1) :
    (simSAStep kb ways Options.optPrefetchAlways c hits t =
      (saPrefetchApply kb ways
        (saAfterReal kb ways Options.optPrefetchAlways c t) t.addr,
       hits + (if (saRealDo kb ways Options.optPrefetchAlways c t).2
         then 1 else 0))) ∧
    ((saRealDo kb ways Options.optPrefetchOnMiss c t).2 = true →
      simSAStep kb ways Options.optPrefetchOnMiss c hits t =
        (saAfterReal kb ways Options.optPrefetchOnMiss c t, hits + 1)) ∧
    ((saRealDo kb ways Options.optPrefetchOnMiss c t).2 = false →
      simSAStep kb ways Options.optPrefetchOnMiss c hits t =
        (saPrefetchApply kb ways
          (saAfterReal kb ways Options.optPrefetchOnMiss c t) t.addr, hits)) ∧
    (simSAStep kb ways Options.optNone c hits t =
      (saAfterReal kb ways Options.optNone c t,
       hits + (if (saRealDo kb ways Options.optNone c t).2 then 1 else 0))) ∧
    (simSAStep kb ways Options.optWriteOnMiss c hits t =
      (saAfterReal kb ways Options.optWriteOnMiss c t,
       hits + (if (saRealDo kb ways Options.optWriteOnMiss c t).2
         then 1 else 0))) := by
  refine ⟨?_, ?_, ?_, ?_, ?_⟩
  · unfold simSAStep saPrefetchApply saAfterReal saRealDo
    dsimp only
    rw [if_neg hne, if_pos (Or.inl rfl)]
  · intro h
    unfold saRealDo at h
    unfold simSAStep saAfterReal saRealDo
    dsimp only
    rw [if_neg hne, h, if_neg (by simp)]
    simp
  · intro h
    unfold saRealDo at h
    unfold simSAStep saPrefetchApply saAfterReal saRealDo
    dsimp only
    rw [if_neg hne, h, if_pos (Or.inr ⟨rfl, rfl⟩)]
    simp
  · unfold simSAStep saAfterReal saRealDo
    dsimp only
    rw [if_neg hne, if_neg (by simp)]
  · unfold simSAStep saAfterReal saRealDo
    dsimp only
    rw [if_neg hne, if_neg (by simp)]

/-- Closed instance of the prefetch decomposition at a concrete
configuration, state and access. -/
theorem C9_prefetch_policy_decomposition_witness :
    simSAStep 16 2 Options.optPrefetchAlways cache0 0 ⟨Op.load, 0x40⟩ =
      (saPrefetchApply 16 2
        (saAfterReal 16 2 Options.optPrefetchAlways cache0 ⟨Op.load, 0x40⟩)
        0x40,
       0 + (if (saRealDo 16 2 Options.optPrefetchAlways cache0
         ⟨Op.load, 0x40⟩).2 then 1 else 0)) :=
  (C9_prefetch_policy_decomposition 16 2 cache0 0 ⟨Op.load, 0x40⟩
    (by decide)).1

/-- C4: counterexample to the claimed address decomposition.  For the
configured 16 KB direct-mapped run (kb = 16, ways = 1, executed by
main), the claim demands tag = addr >> (5 + log2(numSets)) with
numSets = totalSizeBytes / (32 * ways) = 512, i.e. addr >> 14; the
engine instead uses the fixed tag addr >> 10, and the two differ at
address 0x4000 (16 versus 1).  Moreover the multi-way set count is
hardcoded to 16 KB: the set-associative runs that main launches with an
unset (zero) kb field would have numSets = 0 by the claimed formula,
while the engine uses 256 sets for ways = 2. -/
theorem C4_claimed_decomposition_counterexample :
    dmTag 0x4000 = 16 ∧
    0x4000 >>> (block_id_offset + mylog2 (16 * 1024 / (32 * 1))) = 1 ∧
    dmTag 0x4000 ≠ 0x4000 >>> (block_id_offset + mylog2 (16 * 1024 / (32 * 1))) ∧
    saSets 2 = 256 ∧ saSets 2 ≠ 0 * 1024 / (32 * 2) := by
  refine ⟨by decide, by decide, by decide, by decide, by decide⟩

/-- C4 amended: for every power-of-two ways between 2 and 16 the engine
uses numSets = 16 KB / (32 * ways) independently of the configured size
(which agrees with the claimed totalSizeBytes / (32 * ways) exactly when
totalSizeKB = 16, the only size main configures for multi-way runs), and
decomposes addresses as index = (addr >> 5) & (numSets - 1) and
tag = addr >> (5 + log2 numSets); for ways = 1 the index uses
numSets = totalSizeBytes / 32 of the configured power-of-two size as
claimed, but the tag is the fixed addr >> 10 regardless of the size
(matching the claimed formula only for totalSizeKB = 1). -/
theorem C4_amended_decomposition :
    (∀ k : Nat, 1 ≤ k → k ≤ 4 →
      saSets (2 ^ k) = 16 * 1024 / (32 * 2 ^ k) ∧
      (∀ kb : Nat, saMask kb (2 ^ k) = saSets (2 ^ k) - 1) ∧
      (∀ kb addr : Nat, saIndex kb (2 ^ k) addr =
        (addr >>> block_id_offset) &&& (saSets (2 ^ k) - 1)) ∧
      (∀ addr : Nat, saTag (2 ^ k) addr =
        addr >>> (block_id_offset + mylog2 (saSets (2 ^ k))))) ∧
    (∀ a : Nat, a ≤ 5 →
      saMask (2 ^ a) 1 = 2 ^ a * 1024 / 32 - 1 ∧
      (∀ addr : Nat, saIndex (2 ^ a) 1 addr =
        (addr >>> block_id_offset) &&& (2 ^ a * 1024 / 32 - 1)) ∧
      (∀ addr : Nat, dmTag addr = addr >>> 10)) := by
  constructor
  · intro k hk1 hk4
    have hne : (2 : Nat) ^ k ≠ 1 := by
      have : 2 ^ 1 ≤ 2 ^ k := Nat.pow_le_pow_right (by omega) hk1
      omega
    have hmask : ∀ kb : Nat, saMask kb (2 ^ k) = saSets (2 ^ k) - 1 := by
      intro kb
      unfold saMask
      rw [if_neg hne]
      interval_cases k <;> decide
    refine ⟨rfl, hmask, ?_, fun addr => rfl⟩
    intro kb addr
    unfold saIndex
    rw [hmask kb]
  · intro a ha
    have hmask : saMask (2 ^ a) 1 = 2 ^ a * 1024 / 32 - 1 := by
      unfold saMask
      rw [if_pos rfl]
      interval_cases a <;> decide
    refine ⟨hmask, ?_, fun addr => rfl⟩
    intro addr
    unfold saIndex
    rw [hmask]

/-- Closed instance of the amended decomposition at ways = 4, kb = 0 and
kb = 16, and a concrete address. -/
theorem C4_amended_decomposition_witness :
    saMask 0 (2 ^ 2) = saSets (2 ^ 2) - 1 ∧
    saIndex 0 (2 ^ 2) 0x12345 =
      (0x12345 >>> block_id_offset) &&& (saSets (2 ^ 2) - 1) ∧
    saMask (2 ^ 4) 1 = 2 ^ 4 * 1024 / 32 - 1 :=
  ⟨((C4_amended_decomposition.1 2 (by decide) (by decide)).2.1 0),
   ((C4_amended_decomposition.1 2 (by decide) (by decide)).2.2.1 0 0x12345),
   (C4_amended_decomposition.2 4 (by decide)).1⟩

theorem insertLoop_first_invalid (s : CSet) (tag : Nat) :
    ∀ (fuel w lb ll j : Nat), w ≤ j → j < w + fuel →
      s.valid j = false → (∀ v, w ≤ v → v < j → s.valid v = true) →
      insertLoop s tag fuel w lb ll = writeSlot s j tag := by
  intro fuel
  induction fuel with
  | zero => intro w lb ll j h1 h2 _ _; omega
  | succ fuel ih =>
    intro w lb ll j h1 h2 hinv hval
    unfold insertLoop
    dsimp only
    by_cases hwj : w = j
    · subst hwj
      rw [if_pos hinv]
    · rw [if_neg (by rw [hval w (le_refl w) (by omega)]; simp)]
      exact ih (w + 1) _ _ j (by omega) (by omega) hinv
        (fun v hv1 hv2 => hval v (by omega) hv2)

theorem insertLoop_all_valid (s : CSet) (tag : Nat) :
    ∀ (fuel w lb ll : Nat),
      (∀ v, w ≤ v → v < w + fuel → s.valid v = true) →
      (∀ v, v < w + fuel → s.lru v < 2 ^ 32) →
      1 ≤ w + fuel →
      (∀ v, v < w → s.lru v ≤ ll) →
      ((ll = 0 ∧ lb = 0) ∨
        (lb < w ∧ s.lru lb = ll ∧ ∀ v, v < lb → s.lru v < ll)) →
      ∃ b, b < w + fuel ∧ insertLoop s tag fuel w lb ll = writeSlot s b tag ∧
        (∀ v, v < w + fuel → s.lru v ≤ s.lru b) ∧
        (∀ v, v < b → s.lru v < s.lru b) := by
  intro fuel
  induction fuel with
  | zero =>
    intro w lb ll _ _ hw hle hinv
    rcases hinv with ⟨hll, hlb⟩ | ⟨hlbw, hlru, hstrict⟩
    · subst hll; subst hlb
      have h0 : s.lru 0 = 0 := Nat.le_zero.mp (hle 0 (by omega))
      exact ⟨0, by omega, rfl, fun v hv => by
        rw [h0]; exact hle v (by omega), fun v hv => by omega⟩
    · exact ⟨lb, by omega, rfl,
        fun v hv => by rw [hlru]; exact hle v (by omega),
        fun v hv => by rw [hlru]; exact hstrict v hv⟩
  | succ fuel ih =>
    intro w lb ll hval hb hw hle hinv
    unfold insertLoop
    dsimp only
    rw [if_neg (by rw [hval w (le_refl w) (by omega)]; simp)]
    by_cases hc : ll < s.lru w
    · rw [if_pos hc, if_pos hc]
      rw [Nat.mod_eq_of_lt (hb w (by omega))]
      have := ih (w + 1) w (s.lru w)
        (fun v h1 h2 => hval v (by omega) (by omega))
        (fun v h2 => hb v (by omega)) (by omega)
        (fun v hv => by
          rcases Nat.lt_succ_iff_lt_or_eq.mp hv with h | h
          · exact le_of_lt (lt_of_le_of_lt (hle v h) hc)
          · subst h; exact le_refl _)
        (Or.inr ⟨by omega, rfl,
          fun v hv => lt_of_le_of_lt (hle v hv) hc⟩)
      rwa [show w + 1 + fuel = w + (fuel + 1) from by omega] at this
    · rw [if_neg hc, if_neg hc]
      have := ih (w + 1) lb ll
        (fun v h1 h2 => hval v (by omega) (by omega))
        (fun v h2 => hb v (by omega)) (by omega)
        (fun v hv => by
          rcases Nat.lt_succ_iff_lt_or_eq.mp hv with h | h
          · exact hle v h
          · subst h; omega)
        (by
          rcases hinv with ⟨hll, hlb⟩ | ⟨hlbw, hlru, hstrict⟩
          · exact Or.inl ⟨hll, hlb⟩
          · exact Or.inr ⟨by omega, hlru, hstrict⟩)
      rwa [show w + 1 + fuel = w + (fuel + 1) from by omega] at this

/-- C5: in the multi-way engine (2 <= ways <= 16, recency counters below
2^32, which every reachable state satisfies since a counter grows by at
most one per access and the 32-bit trace counter and 15000000-entry
buffer bound the trace), the insert routine installs the tag into the
first invalid slot of the set in scan order, changing no other slot and
hence never evicting a valid slot while an invalid one exists; and only
when every way is valid does it overwrite the slot with the largest
recency counter, ties broken in favor of the lowest scanned position. -/
theorem C5_insert_first_invalid_else_max_lru (s : CSet) (tag ways : Nat)
    (_h2 : 2 ≤ ways) (_h16 : ways ≤ 16)
    (hb : ∀ v, v < ways → s.lru v < 2 ^ 32) :
    (∀ j, j < ways → s.valid j = false → (∀ v, v < j → s.valid v = true) →
      sim_set_associative_insert_tag s tag ways = writeSlot s j tag ∧
      (∀ i, i ≠ j →
        (sim_set_associative_insert_tag s tag ways).tags i = s.tags i ∧
        (sim_set_associative_insert_tag s tag ways).valid i = s.valid i)) ∧
    ((∀ v, v < ways → s.valid v = true) →
      ∃ b, b < ways ∧
        sim_set_associative_insert_tag s tag ways = writeSlot s b tag ∧
        (∀ v, v < ways → s.lru v ≤ s.lru b) ∧
        (∀ v, v < b → s.lru v < s.lru b)) := by
  constructor
  · intro j hj hinv hval
    have heq : sim_set_associative_insert_tag s tag ways = writeSlot s j tag :=
      insertLoop_first_invalid s tag ways 0 0 0 j (by omega) (by omega) hinv
        (fun v _ hv2 => hval v hv2)
    refine ⟨heq, fun i hi => ?_⟩
    rw [heq]
    unfold writeSlot setNat setBool
    simp [hi]
  · intro hval
    have := insertLoop_all_valid s tag ways 0 0 0
      (fun v _ h2 => hval v (by omega)) (fun v h2 => hb v (by omega))
      (by omega) (fun v hv => by omega) (Or.inl ⟨rfl, rfl⟩)
    simpa using this

/-- Closed instance of the insert characterization: with slot 0 valid and
slot 1 invalid in a 2-way set, the tag lands in slot 1. -/
theorem C5_insert_first_invalid_else_max_lru_witness :
    sim_set_associative_insert_tag
      ⟨fun _ => 9, fun i => i, fun i => decide (i = 0)⟩ 7 2 =
      writeSlot ⟨fun _ => 9, fun i => i, fun i => decide (i = 0)⟩ 1 7 :=
  ((C5_insert_first_invalid_else_max_lru
      ⟨fun _ => 9, fun i => i, fun i => decide (i = 0)⟩ 7 2 (by decide)
      (by decide) (fun v hv => by
        have : v < 2 ^ 32 := by omega
        simpa using this)).1 1 (by decide) (by decide)
    (fun v hv => by interval_cases v <;> decide)).1

theorem rangeMap_getD {α : Type} (f : Nat → α) (n j : Nat) (d : α) :
    ((List.range n).map f).getD j d = if j < n then f j else d := by
  by_cases h : j < n
  · simp [List.getD_eq_getElem?_getD, List.getElem?_map, List.getElem?_range, h]
  · rw [if_neg h, List.getD_eq_getElem?_getD, List.getElem?_eq_none (by simpa using h)]
    rfl

theorem rangeMap_set {α : Type} (f : Nat → α) (n k : Nat) (v : α) (hk : k < n) :
    ((List.range n).map f).set k v =
      (List.range n).map fun j => if j = k then v else f j := by
  apply List.ext_getElem
  · simp
  · intro i h1 h2
    simp only [List.getElem_set, List.getElem_map, List.getElem_range]
    by_cases hik : k = i
    · subst hik
      simp
    · rw [if_neg hik, if_neg (fun hh => hik hh.symm)]

theorem faScan_not_mem (tag : Nat) :
    ∀ (l : List (Nat × Nat)) (hit : Bool), (∀ c ∈ l, c.1 ≠ tag) →
      faScan tag l hit = (l.map fun c => (c.1, (c.2 + 1) % 2 ^ 64), hit) := by
  intro l
  induction l with
  | nil => intro hit _; rfl
  | cons c rest ih =>
    intro hit hne
    unfold faScan
    dsimp only
    rw [if_neg (by
      intro hcontra
      exact hne c (List.mem_cons_self c rest) hcontra.2)]
    rw [ih hit (fun d hd => hne d (List.mem_cons_of_mem c hd))]
    rfl

theorem faInsertScan_first_zero (tag : Nat) :
    ∀ (l : List (Nat × Nat)) (w lb ll k : Nat),
      k < l.length → (l.getD k (0, 0)).1 = 0 →
      (∀ j, j < k → (l.getD j (0, 0)).1 ≠ 0) →
      ∃ lb2 ll2, faInsertScan tag l w lb ll = (l.set k (tag, 0), true, lb2, ll2) := by
  intro l
  induction l with
  | nil => intro w lb ll k hk _ _; simp at hk
  | cons c rest ih =>
    intro w lb ll k hk h0 hprev
    unfold faInsertScan
    dsimp only
    match k, hk with
    | 0, _ =>
      rw [List.getD_cons_zero] at h0
      rw [if_pos h0]
      exact ⟨_, _, rfl⟩
    | k + 1, hk =>
      rw [List.getD_cons_succ] at h0
      have hc0 : c.1 ≠ 0 := by
        have := hprev 0 (by omega)
        rwa [List.getD_cons_zero] at this
      rw [if_neg hc0]
      obtain ⟨lb2, ll2, heq⟩ := ih (w + 1)
        (if ll < c.2 then w else lb) (if ll < c.2 then c.2 % 2 ^ 32 else ll) k
        (by simpa using hk) h0
        (fun j hj => by
          have := hprev (j + 1) (by omega)
          rwa [List.getD_cons_succ] at this)
      rw [heq]
      exact ⟨lb2, ll2, rfl⟩

theorem faInsertScan_no_zero (tag : Nat) :
    ∀ (l : List (Nat × Nat)) (w lb ll : Nat),
      (∀ c ∈ l, c.1 ≠ 0) → (∀ c ∈ l, c.2 < 2 ^ 32) → ll < 2 ^ 32 →
      ∃ lb2 ll2, faInsertScan tag l w lb ll = (l, false, lb2, ll2) ∧
        ((ll2 = ll ∧ lb2 = lb ∧
            ∀ j, j < l.length → (l.getD j (0, 0)).2 ≤ ll) ∨
          (∃ k, k < l.length ∧ lb2 = w + k ∧ ll2 = (l.getD k (0, 0)).2 ∧
            ll < ll2 ∧ (∀ j, j < l.length → (l.getD j (0, 0)).2 ≤ ll2) ∧
            (∀ j, j < k → (l.getD j (0, 0)).2 < ll2))) := by
  intro l
  induction l with
  | nil =>
    intro w lb ll _ _ _
    exact ⟨lb, ll, rfl, Or.inl ⟨rfl, rfl, fun j hj => by simp at hj⟩⟩
  | cons c rest ih =>
    intro w lb ll hnz hbnd hll
    have hc0 : c.1 ≠ 0 := hnz c (List.mem_cons_self c rest)
    have hcb : c.2 < 2 ^ 32 := hbnd c (List.mem_cons_self c rest)
    unfold faInsertScan
    dsimp only
    rw [if_neg hc0]
    by_cases hcmp : ll < c.2
    · rw [if_pos hcmp, if_pos hcmp, Nat.mod_eq_of_lt hcb]
      obtain ⟨lb2, ll2, heq, hchar⟩ := ih (w + 1) w c.2
        (fun d hd => hnz d (List.mem_cons_of_mem c hd))
        (fun d hd => hbnd d (List.mem_cons_of_mem c hd)) hcb
      refine ⟨lb2, ll2, by rw [heq], ?_⟩
      rcases hchar with ⟨h1, h2, h3⟩ | ⟨k, hk, h1, h2, h3, h4, h5⟩
      · refine Or.inr ⟨0, by simp, by omega, by simp [h1], by
          rw [h1]; exact hcmp, ?_, fun j hj => by omega⟩
        intro j hj
        match j with
        | 0 => simp [h1]
        | j + 1 =>
          rw [List.getD_cons_succ, h1]
          exact h3 j (by simpa using hj)
      · refine Or.inr ⟨k + 1, by simpa using hk, by omega, by
          rwa [List.getD_cons_succ], by omega, ?_, ?_⟩
        · intro j hj
          match j with
          | 0 => rw [List.getD_cons_zero]; omega
          | j + 1 =>
            rw [List.getD_cons_succ]
            exact h4 j (by simpa using hj)
        · intro j hj
          match j with
          | 0 => rw [List.getD_cons_zero]; omega
          | j + 1 =>
            rw [List.getD_cons_succ]
            exact h5 j (by omega)
    · rw [if_neg hcmp, if_neg hcmp]
      obtain ⟨lb2, ll2, heq, hchar⟩ := ih (w + 1) lb ll
        (fun d hd => hnz d (List.mem_cons_of_mem c hd))
        (fun d hd => hbnd d (List.mem_cons_of_mem c hd)) hll
      refine ⟨lb2, ll2, by rw [heq], ?_⟩
      rcases hchar with ⟨h1, h2, h3⟩ | ⟨k, hk, h1, h2, h3, h4, h5⟩
      · refine Or.inl ⟨h1, h2, ?_⟩
        intro j hj
        match j with
        | 0 => rw [List.getD_cons_zero]; omega
        | j + 1 =>
          rw [List.getD_cons_succ]
          exact h3 j (by simpa using hj)
      · refine Or.inr ⟨k + 1, by simpa using hk, by omega, by
          rwa [List.getD_cons_succ], h3, ?_, ?_⟩
        · intro j hj
          match j with
          | 0 => rw [List.getD_cons_zero]; omega
          | j + 1 =>
            rw [List.getD_cons_succ]
            exact h4 j (by simpa using hj)
        · intro j hj
          match j with
          | 0 => rw [List.getD_cons_zero]; omega
          | j + 1 =>
            rw [List.getD_cons_succ]
            exact h5 j (by omega)

theorem faStep_miss (st : List (Nat × Nat)) (hits : Nat) (t : Trace)
    (hne : ∀ c ∈ st, c.1 ≠ t.addr >>> block_id_offset) :
    faStep st hits t =
      (faInsertFull (t.addr >>> block_id_offset)
        (st.map fun c => (c.1, (c.2 + 1) % 2 ^ 64)), hits) := by
  unfold faStep
  dsimp only
  rw [faScan_not_mem _ st false hne]
  simp

theorem faStep_hit_snd (st : List (Nat × Nat)) (hits : Nat) (t : Trace)
    (h : (faScan (t.addr >>> block_id_offset) st false).2 = true) :
    (faStep st hits t).2 = hits + 1 := by
  unfold faStep
  dsimp only
  rw [h]
  simp

theorem faScan_snd_of_mem (tag : Nat) :
    ∀ (l : List (Nat × Nat)) (hit : Bool), (∃ c ∈ l, c.1 = tag) →
      (faScan tag l hit).2 = true := by
  intro l
  induction l with
  | nil => intro hit h; simp at h
  | cons c rest ih =>
    intro hit h
    unfold faScan
    dsimp only
    by_cases hcond : hit = false ∧ c.1 = tag
    · rw [if_pos hcond]
      exact faScan_true_snd tag rest
    · rw [if_neg hcond]
      rcases h with ⟨d, hd, hdtag⟩
      rcases List.mem_cons.mp hd with rfl | hd2
      · match hit with
        | true => exact faScan_true_snd tag rest
        | false => exact absurd ⟨rfl, hdtag⟩ hcond
      · exact ih hit ⟨d, hd2, hdtag⟩

theorem faInsertFull_first_zero (st : List (Nat × Nat)) (tag k : Nat)
    (hk : k < st.length) (h0 : (st.getD k (0, 0)).1 = 0)
    (hprev : ∀ j, j < k → (st.getD j (0, 0)).1 ≠ 0) :
    faInsertFull tag st = st.set k (tag, 0) := by
  unfold faInsertFull
  obtain ⟨lb2, ll2, heq⟩ := faInsertScan_first_zero tag st 0 0 0 k hk h0 hprev
  rw [heq]
  dsimp only
  rw [if_pos rfl]

theorem faInsertFull_no_zero (st : List (Nat × Nat)) (tag : Nat)
    (hnz : ∀ c ∈ st, c.1 ≠ 0) (hbnd : ∀ c ∈ st, c.2 < 2 ^ 32)
    (hlen : 0 < st.length) :
    ∃ b, b < st.length ∧ faInsertFull tag st = st.set b (tag, 0) ∧
      (∀ j, j < st.length → (st.getD j (0, 0)).2 ≤ (st.getD b (0, 0)).2) ∧
      (∀ j, j < b → (st.getD j (0, 0)).2 < (st.getD b (0, 0)).2) := by
  unfold faInsertFull
  obtain ⟨lb2, ll2, heq, hchar⟩ := faInsertScan_no_zero tag st 0 0 0 hnz hbnd
    (by norm_num)
  rw [heq]
  dsimp only
  rw [if_neg (by simp)]
  rcases hchar with ⟨h1, h2, h3⟩ | ⟨k, hk, h1, h2, h3, h4, h5⟩
  · subst h2
    refine ⟨0, hlen, rfl, ?_, fun j hj => by omega⟩
    intro j hj
    have ha := h3 j hj
    have hb := h3 0 hlen
    omega
  · subst h1
    rw [Nat.zero_add]
    refine ⟨k, hk, rfl, ?_, ?_⟩
    · intro j hj
      have := h4 j hj
      omega
    · intro j hj
      have := h5 j hj
      omega

/-- C6 amended: in the exact-LRU fully-associative engine a miss leaves
the hit counter alone and runs the victim scan over the aged blocks
(first conjunct); that scan installs the tag into the first block whose
stored tag is 0 -- the engine has no validity flags and treats a zero
tag as emptiness, including a block genuinely caching tag 0 (second
conjunct); only when no block's tag is 0 is the block with the maximum
recency counter overwritten, ties broken by the lowest scanned index
(third conjunct, under counters below 2^32, true of every reachable
state). -/
theorem C6_amended_miss_allocation (st : List (Nat × Nat)) (tag : Nat) :
    (∀ (hits : Nat) (t : Trace),
      (∀ c ∈ st, c.1 ≠ t.addr >>> block_id_offset) →
      faStep st hits t =
        (faInsertFull (t.addr >>> block_id_offset)
          (st.map fun c => (c.1, (c.2 + 1) % 2 ^ 64)), hits)) ∧
    (∀ k, k < st.length → (st.getD k (0, 0)).1 = 0 →
      (∀ j, j < k → (st.getD j (0, 0)).1 ≠ 0) →
      faInsertFull tag st = st.set k (tag, 0)) ∧
    ((∀ c ∈ st, c.1 ≠ 0) → (∀ c ∈ st, c.2 < 2 ^ 32) → 0 < st.length →
      ∃ b, b < st.length ∧ faInsertFull tag st = st.set b (tag, 0) ∧
        (∀ j, j < st.length → (st.getD j (0, 0)).2 ≤ (st.getD b (0, 0)).2) ∧
        (∀ j, j < b → (st.getD j (0, 0)).2 < (st.getD b (0, 0)).2)) := by
  exact ⟨fun hits t hne => faStep_miss st hits t hne,
    fun k hk h0 hprev => faInsertFull_first_zero st tag k hk h0 hprev,
    fun hnz hbnd hlen => faInsertFull_no_zero st tag hnz hbnd hlen⟩

/-- Closed instance of the amended allocation: with block 0 caching the
nonzero tag 5 and block 1 holding tag 0, the miss path installs into
block 1. -/
theorem C6_amended_miss_allocation_witness :
    faInsertFull 7 [(5, 3), (0, 9)] = [(5, 3), (0, 9)].set 1 (7, 0) :=
  (C6_amended_miss_allocation [(5, 3), (0, 9)] 7).2.1 1 (by decide) (by decide)
    (fun j hj => by interval_cases j; decide)

theorem faRun_append :
    ∀ (l1 l2 : List Trace) (st : List (Nat × Nat)) (h : Nat),
      faRun st h (l1 ++ l2) = faRun (faRun st h l1).1 (faRun st h l1).2 l2 := by
  intro l1
  induction l1 with
  | nil => intro l2 st h; rfl
  | cons t ts ih =>
    intro l2 st h
    simp only [List.cons_append, faRun]
    exact ih l2 _ _

theorem claimFARun_append :
    ∀ (l1 l2 : List Trace) (st : List (Nat × Nat × Bool)) (h : Nat),
      claimFARun st h (l1 ++ l2) =
        claimFARun (claimFARun st h l1).1 (claimFARun st h l1).2 l2 := by
  intro l1
  induction l1 with
  | nil => intro l2 st h; rfl
  | cons t ts ih =>
    intro l2 st h
    simp only [List.cons_append, claimFARun]
    exact ih l2 _ _

theorem fillStep (k h : Nat) (hk : k < 512) :
    faStep (fillSt k) h ⟨Op.load, 32 * (k + 1)⟩ = (fillSt (k + 1), h) := by
  have htag : (32 * (k + 1)) >>> block_id_offset = k + 1 := by
    rw [block_id_offset, Nat.shiftRight_eq_div_pow]
    omega
  have hscan : faScan ((32 * (k + 1)) >>> block_id_offset) (fillSt k) false =
      ((fillSt k).map fun c => (c.1, (c.2 + 1) % 2 ^ 64), false) := by
    apply faScan_not_mem
    intro c hc
    rw [htag]
    unfold fillSt at hc
    rw [List.mem_map] at hc
    obtain ⟨j, hj, rfl⟩ := hc
    rw [List.mem_range] at hj
    split <;> simp <;> omega
  have haged : (fillSt k).map (fun c => (c.1, (c.2 + 1) % 2 ^ 64)) =
      (List.range 512).map fun j =>
        if j < k then (j + 1, k - j) else (0, k + 1) := by
    unfold fillSt
    rw [List.map_map]
    apply List.map_congr_left
    intro j hj
    rw [List.mem_range] at hj
    have h64a : k - j < 2 ^ 64 := lt_of_le_of_lt (by omega : k - j ≤ 512) (by norm_num)
    have h64b : k + 1 < 2 ^ 64 := lt_of_le_of_lt (by omega : k + 1 ≤ 512) (by norm_num)
    by_cases hjk : j < k
    · simp only [Function.comp_apply, if_pos hjk]
      have harith : k - 1 - j + 1 = k - j := by omega
      rw [harith, Nat.mod_eq_of_lt h64a]
    · simp only [Function.comp_apply, if_neg hjk]
      rw [Nat.mod_eq_of_lt h64b]
  have hinsert : faInsertFull (k + 1)
      ((List.range 512).map fun j =>
        if j < k then (j + 1, k - j) else (0, k + 1)) = fillSt (k + 1) := by
    have hfz : ∀ j, j < k →
        ((((List.range 512).map fun j =>
          if j < k then (j + 1, k - j) else (0, k + 1))).getD j (0, 0)).1 ≠ 0 := by
      intro j hj
      rw [rangeMap_getD, if_pos (by omega), if_pos hj]
      simp
    have h0 : ((((List.range 512).map fun j =>
        if j < k then (j + 1, k - j) else (0, k + 1))).getD k (0, 0)).1 = 0 := by
      rw [rangeMap_getD, if_pos hk, if_neg (by omega)]
    unfold faInsertFull
    obtain ⟨lb2, ll2, heq⟩ := faInsertScan_first_zero (k + 1) _ 0 0 0 k
      (by simpa using hk) h0 hfz
    rw [heq]
    dsimp only
    rw [rangeMap_set _ _ _ _ hk]
    unfold fillSt
    apply List.map_congr_left
    intro j hj
    rw [List.mem_range] at hj
    by_cases hjk : j = k
    · subst hjk
      rw [if_pos rfl, if_pos (by omega)]
      congr 1 <;> omega
    · rw [if_neg hjk]
      by_cases hjlt : j < k
      · rw [if_pos hjlt, if_pos (by omega)]
        congr 1
      · rw [if_neg hjlt, if_neg (by omega)]
  unfold faStep
  dsimp only
  rw [hscan]
  simp only [htag, haged, hinsert, Bool.false_eq_true, if_false]

theorem fillRun :
    ∀ (m k h : Nat), k + m = 512 →
      faRun (fillSt k) h
        ((List.range m).map fun i => (⟨Op.load, 32 * (k + i + 1)⟩ : Trace)) =
        (fillSt 512, h) := by
  intro m
  induction m with
  | zero =>
    intro k h hk
    have : k = 512 := by omega
    subst this
    rfl
  | succ m ih =>
    intro k h hk
    rw [List.range_succ_eq_map, List.map_cons, List.map_map]
    have hmap : (List.range m).map
        ((fun i => (⟨Op.load, 32 * (k + i + 1)⟩ : Trace)) ∘ Nat.succ) =
        (List.range m).map fun i => (⟨Op.load, 32 * (k + 1 + i + 1)⟩ : Trace) := by
      apply List.map_congr_left
      intro i _
      simp only [Function.comp_apply]
      congr 1
      omega
    rw [hmap]
    show faRun (fillSt k) h (⟨Op.load, 32 * (k + 0 + 1)⟩ ::
      (List.range m).map fun i => (⟨Op.load, 32 * (k + 1 + i + 1)⟩ : Trace)) = _
    unfold faRun
    dsimp only
    rw [show (k + 0 + 1) = k + 1 from by omega, fillStep k h (by omega)]
    exact ih (k + 1) h (by omega)

theorem claimFAScan_no_valid_match (tag : Nat) :
    ∀ (l : List (Nat × Nat × Bool)) (hit : Bool),
      (∀ c ∈ l, c.2.2 = true → c.1 ≠ tag) →
      claimFAScan tag l hit = (l.map fun c => (c.1, c.2.1 + 1, c.2.2), hit) := by
  intro l
  induction l with
  | nil => intro hit _; rfl
  | cons c rest ih =>
    intro hit hne
    unfold claimFAScan
    dsimp only
    rw [if_neg (by
      intro hcontra
      exact hne c (List.mem_cons_self c rest) hcontra.2.1 hcontra.2.2)]
    rw [ih hit (fun d hd => hne d (List.mem_cons_of_mem c hd))]
    rfl

theorem claimFAFirstInvalid_eq :
    ∀ (l : List (Nat × Nat × Bool)) (k : Nat), k < l.length →
      (l.getD k (0, 0, true)).2.2 = false →
      (∀ j, j < k → (l.getD j (0, 0, true)).2.2 = true) →
      claimFAFirstInvalid l = some k := by
  intro l
  induction l with
  | nil => intro k hk _ _; simp at hk
  | cons c rest ih =>
    intro k hk h0 hprev
    unfold claimFAFirstInvalid
    match k, hk with
    | 0, _ =>
      rw [List.getD_cons_zero] at h0
      rw [if_pos h0]
    | k + 1, hk =>
      rw [List.getD_cons_succ] at h0
      have hc : c.2.2 = true := by
        have := hprev 0 (by omega)
        rwa [List.getD_cons_zero] at this
      rw [if_neg (by rw [hc]; simp)]
      rw [ih k (by simpa using hk) h0 (fun j hj => by
        have := hprev (j + 1) (by omega)
        rwa [List.getD_cons_succ] at this)]
      rfl

theorem claimFillStep (k h : Nat) (hk : k < 512) :
    claimFAStep (claimFillSt k) h ⟨Op.load, 32 * (k + 1)⟩ =
      (claimFillSt (k + 1), h) := by
  have htag : (32 * (k + 1)) >>> block_id_offset = k + 1 := by
    rw [block_id_offset, Nat.shiftRight_eq_div_pow]
    omega
  have hscan : claimFAScan ((32 * (k + 1)) >>> block_id_offset)
      (claimFillSt k) false =
      ((claimFillSt k).map fun c => (c.1, c.2.1 + 1, c.2.2), false) := by
    apply claimFAScan_no_valid_match
    intro c hc
    rw [htag]
    unfold claimFillSt at hc
    rw [List.mem_map] at hc
    obtain ⟨j, hj, rfl⟩ := hc
    rw [List.mem_range] at hj
    split <;> simp <;> omega
  have haged : (claimFillSt k).map (fun c => (c.1, c.2.1 + 1, c.2.2)) =
      (List.range 512).map fun j =>
        if j < k then (j + 1, k - j, true) else (0, k + 1, false) := by
    unfold claimFillSt
    rw [List.map_map]
    apply List.map_congr_left
    intro j hj
    rw [List.mem_range] at hj
    by_cases hjk : j < k
    · simp only [Function.comp_apply, if_pos hjk]
      have harith : k - 1 - j + 1 = k - j := by omega
      rw [harith]
    · simp only [Function.comp_apply, if_neg hjk]
  have halloc : claimFAAlloc (k + 1)
      ((List.range 512).map fun j =>
        if j < k then (j + 1, k - j, true) else (0, k + 1, false)) =
      claimFillSt (k + 1) := by
    unfold claimFAAlloc
    rw [claimFAFirstInvalid_eq _ k (by simpa using hk)
      (by rw [rangeMap_getD, if_pos hk, if_neg (by omega)])
      (fun j hj => by rw [rangeMap_getD, if_pos (by omega), if_pos hj])]
    dsimp only
    rw [rangeMap_set _ _ _ _ hk]
    unfold claimFillSt
    apply List.map_congr_left
    intro j hj
    rw [List.mem_range] at hj
    by_cases hjk : j = k
    · subst hjk
      rw [if_pos rfl, if_pos (by omega),
        show j + 1 - 1 - j = 0 from by omega]
    · rw [if_neg hjk]
      by_cases hjlt : j < k
      · rw [if_pos hjlt, if_pos (by omega),
          show k + 1 - 1 - j = k - j from by omega]
      · rw [if_neg hjlt, if_neg (by omega)]
  unfold claimFAStep
  dsimp only
  rw [hscan]
  simp only [htag, haged, halloc, Bool.false_eq_true, if_false]

theorem claimFillRun :
    ∀ (m k h : Nat), k + m = 512 →
      claimFARun (claimFillSt k) h
        ((List.range m).map fun i => (⟨Op.load, 32 * (k + i + 1)⟩ : Trace)) =
        (claimFillSt 512, h) := by
  intro m
  induction m with
  | zero =>
    intro k h hk
    have : k = 512 := by omega
    subst this
    rfl
  | succ m ih =>
    intro k h hk
    rw [List.range_succ_eq_map, List.map_cons, List.map_map]
    have hmap : (List.range m).map
        ((fun i => (⟨Op.load, 32 * (k + i + 1)⟩ : Trace)) ∘ Nat.succ) =
        (List.range m).map fun i => (⟨Op.load, 32 * (k + 1 + i + 1)⟩ : Trace) := by
      apply List.map_congr_left
      intro i _
      simp only [Function.comp_apply]
      congr 1
      omega
    rw [hmap]
    show claimFARun (claimFillSt k) h (⟨Op.load, 32 * (k + 0 + 1)⟩ ::
      (List.range m).map fun i => (⟨Op.load, 32 * (k + 1 + i + 1)⟩ : Trace)) = _
    unfold claimFARun
    dsimp only
    rw [show (k + 0 + 1) = k + 1 from by omega, claimFillStep k h (by omega)]
    exact ih (k + 1) h (by omega)


theorem faRun_nil (st : List (Nat × Nat)) (h : Nat) :
    faRun st h [] = (st, h) := rfl

theorem faRun_cons (st : List (Nat × Nat)) (h : Nat) (t : Trace)
    (ts : List Trace) :
    faRun st h (t :: ts) = faRun (faStep st h t).1 (faStep st h t).2 ts := by
  simp only [faRun]

theorem claimFARun_nil (st : List (Nat × Nat × Bool)) (h : Nat) :
    claimFARun st h [] = (st, h) := rfl

theorem claimFARun_cons (st : List (Nat × Nat × Bool)) (h : Nat) (t : Trace)
    (ts : List Trace) :
    claimFARun st h (t :: ts) =
      claimFARun (claimFAStep st h t).1 (claimFAStep st h t).2 ts := by
  simp only [claimFARun]

theorem claimFAStep_miss (st : List (Nat × Nat × Bool)) (hits : Nat)
    (t : Trace)
    (hne : ∀ c ∈ st, c.2.2 = true → c.1 ≠ t.addr >>> block_id_offset) :
    claimFAStep st hits t =
      (claimFAAlloc (t.addr >>> block_id_offset)
        (st.map fun c => (c.1, c.2.1 + 1, c.2.2)), hits) := by
  unfold claimFAStep
  dsimp only
  rw [claimFAScan_no_valid_match _ st false hne]
  simp

theorem claimFAFirstInvalid_none :
    ∀ l : List (Nat × Nat × Bool), (∀ c ∈ l, c.2.2 = true) →
      claimFAFirstInvalid l = none := by
  intro l
  induction l with
  | nil => intro _; rfl
  | cons c rest ih =>
    intro hval
    unfold claimFAFirstInvalid
    rw [if_neg (by rw [hval c (List.mem_cons_self c rest)]; simp)]
    rw [ih (fun d hd => hval d (List.mem_cons_of_mem c hd))]
    rfl

theorem claimFAVictim_spec :
    ∀ (l : List (Nat × Nat × Bool)) (w lb ll : Nat),
      (claimFAVictim l w lb ll = lb ∧
        ∀ j, j < l.length → (l.getD j (0, 0, true)).2.1 ≤ ll) ∨
      (∃ k, k < l.length ∧ claimFAVictim l w lb ll = w + k ∧
        ll < (l.getD k (0, 0, true)).2.1 ∧
        (∀ j, j < l.length →
          (l.getD j (0, 0, true)).2.1 ≤ (l.getD k (0, 0, true)).2.1) ∧
        (∀ j, j < k →
          (l.getD j (0, 0, true)).2.1 < (l.getD k (0, 0, true)).2.1)) := by
  intro l
  induction l with
  | nil =>
    intro w lb ll
    exact Or.inl ⟨rfl, fun j hj => by simp at hj⟩
  | cons c rest ih =>
    intro w lb ll
    unfold claimFAVictim
    by_cases hcmp : ll < c.2.1
    · rw [if_pos hcmp]
      rcases ih (w + 1) w c.2.1 with ⟨h1, h2⟩ | ⟨k, hk, h1, h2, h3, h4⟩
      · refine Or.inr ⟨0, by simp, by omega, by
          rw [List.getD_cons_zero]; exact hcmp, ?_, fun j hj => by omega⟩
        intro j hj
        match j with
        | 0 => rw [List.getD_cons_zero]
        | j + 1 =>
          rw [List.getD_cons_succ, List.getD_cons_zero]
          exact h2 j (by simpa using hj)
      · refine Or.inr ⟨k + 1, by simpa using hk, by omega, ?_, ?_, ?_⟩
        · rw [List.getD_cons_succ]
          omega
        · intro j hj
          match j with
          | 0 =>
            rw [List.getD_cons_zero, List.getD_cons_succ]
            omega
          | j + 1 =>
            rw [List.getD_cons_succ, List.getD_cons_succ]
            exact h3 j (by simpa using hj)
        · intro j hj
          match j with
          | 0 =>
            rw [List.getD_cons_zero, List.getD_cons_succ]
            omega
          | j + 1 =>
            rw [List.getD_cons_succ, List.getD_cons_succ]
            exact h4 j (by omega)
    · rw [if_neg hcmp]
      rcases ih (w + 1) lb ll with ⟨h1, h2⟩ | ⟨k, hk, h1, h2, h3, h4⟩
      · refine Or.inl ⟨h1, ?_⟩
        intro j hj
        match j with
        | 0 => rw [List.getD_cons_zero]; omega
        | j + 1 =>
          rw [List.getD_cons_succ]
          exact h2 j (by simpa using hj)
      · refine Or.inr ⟨k + 1, by simpa using hk, by omega, ?_, ?_, ?_⟩
        · rw [List.getD_cons_succ]
          exact h2
        · intro j hj
          match j with
          | 0 =>
            rw [List.getD_cons_zero, List.getD_cons_succ]
            omega
          | j + 1 =>
            rw [List.getD_cons_succ, List.getD_cons_succ]
            exact h3 j (by simpa using hj)
        · intro j hj
          match j with
          | 0 =>
            rw [List.getD_cons_zero, List.getD_cons_succ]
            omega
          | j + 1 =>
            rw [List.getD_cons_succ, List.getD_cons_succ]
            exact h4 j (by omega)

theorem claimFAAlloc_all_valid (tag : Nat) (st : List (Nat × Nat × Bool))
    (hval : ∀ c ∈ st, c.2.2 = true) :
    claimFAAlloc tag st = st.set (claimFAVictim st 0 0 0) (tag, 0, true) := by
  unfold claimFAAlloc
  rw [claimFAFirstInvalid_none st hval]

theorem sim_fa_fst (traces : List Trace) :
    (sim_fully_associative traces).1 = (faRun faInit 0 traces).2 := rfl

theorem sim_fa_claim_fst (traces : List Trace) :
    (sim_fully_associative_claim traces).1 =
      (claimFARun claimFAInit 0 traces).2 := rfl

/-- C6: counterexample to the first-invalid-slot reading of the
fully-associative miss path.  On the 515-access trace c6trace the code
engine reports 1 hit while the engine that follows the claim's wording
(validity flags, first invalid slot, else exact-LRU victim) reports 0:
after the 512-tag fill and the load of address 0, the code treats the
valid block caching tag 0 as empty and overwrites it on the next miss
instead of evicting the least recently used block 1, so the final load
of address 64 (tag 2, still cached in block 1) hits in the code and
misses in the claim engine. -/
theorem C6_first_invalid_reading_counterexample :
    (sim_fully_associative c6trace).1 = 1 ∧
    (sim_fully_associative_claim c6trace).1 = 0 ∧
    (sim_fully_associative c6trace).1 ≠ (sim_fully_associative_claim c6trace).1 := by
  have hfill_eq : c6fill =
      (List.range 512).map fun i => (⟨Op.load, 32 * (0 + i + 1)⟩ : Trace) := by
    unfold c6fill
    apply List.map_congr_left
    intro i _
    have harith : 32 * (i + 1) = 32 * (0 + i + 1) := by omega
    rw [harith]
  have h2to32 : ∀ n : Nat, n ≤ 513 → n < 2 ^ 32 := by
    intro n hn
    exact lt_of_le_of_lt hn (by norm_num)
  have h2to64 : ∀ n : Nat, n ≤ 513 → n < 2 ^ 64 := by
    intro n hn
    exact lt_of_le_of_lt hn (by norm_num)
  have hstep1 : faStep (fillSt 512) 0 ⟨Op.load, 0⟩ =
      ((List.range 512).map fun j =>
        if j = 0 then ((0 : Nat), (0 : Nat)) else (j + 1, 512 - j), 0) := by
    have hne : ∀ c ∈ fillSt 512,
        c.1 ≠ (⟨Op.load, 0⟩ : Trace).addr >>> block_id_offset := by
      intro c hc
      unfold fillSt at hc
      rw [List.mem_map] at hc
      obtain ⟨j, hj, rfl⟩ := hc
      rw [List.mem_range] at hj
      rw [if_pos hj]
      show j + 1 ≠ (0 : Nat) >>> block_id_offset
      rw [show (0 : Nat) >>> block_id_offset = 0 from by decide]
      omega
    rw [faStep_miss _ _ _ hne]
    have hA1 : (fillSt 512).map (fun c => (c.1, (c.2 + 1) % 2 ^ 64)) =
        (List.range 512).map fun j => (j + 1, 512 - j) := by
      unfold fillSt
      rw [List.map_map]
      apply List.map_congr_left
      intro j hj
      rw [List.mem_range] at hj
      simp only [Function.comp_apply, if_pos hj]
      have h1 : 511 - j + 1 = 512 - j := by omega
      rw [h1, Nat.mod_eq_of_lt (h2to64 _ (by omega))]
    rw [hA1, show (⟨Op.load, 0⟩ : Trace).addr >>> block_id_offset = 0 from
      by decide]
    obtain ⟨b, hblen, heq, hle, _⟩ := faInsertFull_no_zero
      ((List.range 512).map fun j => (j + 1, 512 - j)) 0
      (by
        intro c hc
        rw [List.mem_map] at hc
        obtain ⟨j, _, rfl⟩ := hc
        simp)
      (by
        intro c hc
        rw [List.mem_map] at hc
        obtain ⟨j, hj, rfl⟩ := hc
        rw [List.mem_range] at hj
        exact h2to32 _ (by omega))
      (by simp)
    rw [heq]
    have hb512 : b < 512 := by simpa using hblen
    have hb0 : b = 0 := by
      have h0 := hle 0 (by simp)
      rw [rangeMap_getD, rangeMap_getD, if_pos (by omega : (0 : Nat) < 512),
        if_pos hb512] at h0
      dsimp only at h0
      omega
    subst hb0
    rw [rangeMap_set _ _ _ _ (by omega : (0 : Nat) < 512)]
  have hstep2 : faStep ((List.range 512).map fun j =>
      if j = 0 then ((0 : Nat), (0 : Nat)) else (j + 1, 512 - j)) 0
      ⟨Op.load, 19200⟩ =
      ((List.range 512).map fun j =>
        if j = 0 then ((600 : Nat), (0 : Nat)) else (j + 1, 513 - j), 0) := by
    have hne : ∀ c ∈ (List.range 512).map fun j =>
        if j = 0 then ((0 : Nat), (0 : Nat)) else (j + 1, 512 - j),
        c.1 ≠ (⟨Op.load, 19200⟩ : Trace).addr >>> block_id_offset := by
      intro c hc
      rw [List.mem_map] at hc
      obtain ⟨j, hj, rfl⟩ := hc
      rw [List.mem_range] at hj
      show _ ≠ (19200 : Nat) >>> block_id_offset
      rw [show (19200 : Nat) >>> block_id_offset = 600 from by decide]
      by_cases hj0 : j = 0
      · rw [if_pos hj0]
        simp
      · rw [if_neg hj0]
        simp
        omega
    rw [faStep_miss _ _ _ hne]
    have hA2 : ((List.range 512).map fun j =>
        if j = 0 then ((0 : Nat), (0 : Nat)) else (j + 1, 512 - j)).map
          (fun c => (c.1, (c.2 + 1) % 2 ^ 64)) =
        (List.range 512).map fun j =>
          if j = 0 then ((0 : Nat), (1 : Nat)) else (j + 1, 513 - j) := by
      rw [List.map_map]
      apply List.map_congr_left
      intro j hj
      rw [List.mem_range] at hj
      by_cases hj0 : j = 0
      · simp only [Function.comp_apply, if_pos hj0]
        norm_num
      · simp only [Function.comp_apply, if_neg hj0]
        have h1 : 512 - j + 1 = 513 - j := by omega
        rw [h1, Nat.mod_eq_of_lt (h2to64 _ (by omega))]
    rw [hA2, show (⟨Op.load, 19200⟩ : Trace).addr >>> block_id_offset = 600 from
      by decide]
    rw [faInsertFull_first_zero _ 600 0 (by simp)
      (by rw [rangeMap_getD, if_pos (by omega : (0 : Nat) < 512), if_pos rfl])
      (fun j hj => by omega)]
    rw [rangeMap_set _ _ _ _ (by omega : (0 : Nat) < 512)]
    refine congrArg (fun l => (l, (0 : Nat))) (List.map_congr_left ?_)
    intro j hj
    by_cases hj0 : j = 0
    · rw [if_pos hj0, if_pos hj0]
    · rw [if_neg hj0, if_neg hj0, if_neg hj0]
  have hstep3 : (faStep ((List.range 512).map fun j =>
      if j = 0 then ((600 : Nat), (0 : Nat)) else (j + 1, 513 - j)) 0
      ⟨Op.load, 64⟩).2 = 1 := by
    apply faStep_hit_snd
    apply faScan_snd_of_mem
    refine ⟨(2, 512), ?_, rfl⟩
    rw [List.mem_map]
    refine ⟨1, List.mem_range.mpr (by omega), ?_⟩
    rw [if_neg (by omega)]
  have hcode : (sim_fully_associative c6trace).1 = 1 := by
    rw [sim_fa_fst]
    rw [show c6trace = c6fill ++ c6tail from rfl, faRun_append,
      show faInit = fillSt 0 from by decide, hfill_eq,
      fillRun 512 0 0 (by omega)]
    dsimp only
    rw [show c6tail = [⟨Op.load, 0⟩, ⟨Op.load, 19200⟩, ⟨Op.load, 64⟩] from rfl]
    rw [faRun_cons, hstep1]
    dsimp only
    rw [faRun_cons, hstep2]
    dsimp only
    rw [faRun_cons, faRun_nil]
    exact hstep3
  have hcstep1 : claimFAStep (claimFillSt 512) 0 ⟨Op.load, 0⟩ =
      ((List.range 512).map fun j =>
        if j = 0 then ((0 : Nat), (0 : Nat), true) else (j + 1, 512 - j, true),
       0) := by
    have hne : ∀ c ∈ claimFillSt 512, c.2.2 = true →
        c.1 ≠ (⟨Op.load, 0⟩ : Trace).addr >>> block_id_offset := by
      intro c hc _
      unfold claimFillSt at hc
      rw [List.mem_map] at hc
      obtain ⟨j, hj, rfl⟩ := hc
      rw [List.mem_range] at hj
      rw [if_pos hj]
      show j + 1 ≠ (0 : Nat) >>> block_id_offset
      rw [show (0 : Nat) >>> block_id_offset = 0 from by decide]
      omega
    rw [claimFAStep_miss _ _ _ hne]
    have hA1 : (claimFillSt 512).map (fun c => (c.1, c.2.1 + 1, c.2.2)) =
        (List.range 512).map fun j => (j + 1, 512 - j, true) := by
      unfold claimFillSt
      rw [List.map_map]
      apply List.map_congr_left
      intro j hj
      rw [List.mem_range] at hj
      simp only [Function.comp_apply, if_pos hj]
      have h1 : 511 - j + 1 = 512 - j := by omega
      rw [h1]
    rw [hA1, show (⟨Op.load, 0⟩ : Trace).addr >>> block_id_offset = 0 from
      by decide]
    rw [claimFAAlloc_all_valid 0 _ (by
      intro c hc
      rw [List.mem_map] at hc
      obtain ⟨j, _, rfl⟩ := hc
      rfl)]
    have hvic : claimFAVictim
        ((List.range 512).map fun j => (j + 1, 512 - j, true)) 0 0 0 = 0 := by
      rcases claimFAVictim_spec
        ((List.range 512).map fun j => (j + 1, 512 - j, true)) 0 0 0 with
        ⟨_, h2⟩ | ⟨k, hk, h1, _, h3, _⟩
      · exfalso
        have := h2 0 (by simp)
        rw [rangeMap_getD, if_pos (by omega : (0 : Nat) < 512)] at this
        dsimp only at this
        omega
      · have hk512 : k < 512 := by simpa using hk
        have hc0 := h3 0 (by simp)
        rw [rangeMap_getD, rangeMap_getD, if_pos (by omega : (0 : Nat) < 512),
          if_pos hk512] at hc0
        dsimp only at hc0
        have hkz : k = 0 := by omega
        rw [h1, hkz]
    rw [hvic, rangeMap_set _ _ _ _ (by omega : (0 : Nat) < 512)]
  have hcstep2 : claimFAStep ((List.range 512).map fun j =>
      if j = 0 then ((0 : Nat), (0 : Nat), true) else (j + 1, 512 - j, true)) 0
      ⟨Op.load, 19200⟩ =
      ((List.range 512).map fun j =>
        if j = 0 then ((0 : Nat), (1 : Nat), true)
        else if j = 1 then (600, 0, true) else (j + 1, 513 - j, true), 0) := by
    have hne : ∀ c ∈ (List.range 512).map fun j =>
        if j = 0 then ((0 : Nat), (0 : Nat), true) else (j + 1, 512 - j, true),
        c.2.2 = true →
        c.1 ≠ (⟨Op.load, 19200⟩ : Trace).addr >>> block_id_offset := by
      intro c hc _
      rw [List.mem_map] at hc
      obtain ⟨j, hj, rfl⟩ := hc
      rw [List.mem_range] at hj
      show _ ≠ (19200 : Nat) >>> block_id_offset
      rw [show (19200 : Nat) >>> block_id_offset = 600 from by decide]
      by_cases hj0 : j = 0
      · rw [if_pos hj0]
        simp
      · rw [if_neg hj0]
        simp
        omega
    rw [claimFAStep_miss _ _ _ hne]
    have hA2 : ((List.range 512).map fun j =>
        if j = 0 then ((0 : Nat), (0 : Nat), true)
        else (j + 1, 512 - j, true)).map (fun c => (c.1, c.2.1 + 1, c.2.2)) =
        (List.range 512).map fun j =>
          if j = 0 then ((0 : Nat), (1 : Nat), true)
          else (j + 1, 513 - j, true) := by
      rw [List.map_map]
      apply List.map_congr_left
      intro j hj
      rw [List.mem_range] at hj
      by_cases hj0 : j = 0
      · simp only [Function.comp_apply, if_pos hj0]
      · simp only [Function.comp_apply, if_neg hj0]
        have h1 : 512 - j + 1 = 513 - j := by omega
        rw [h1]
    rw [hA2, show (⟨Op.load, 19200⟩ : Trace).addr >>> block_id_offset = 600 from
      by decide]
    rw [claimFAAlloc_all_valid 600 _ (by
      intro c hc
      rw [List.mem_map] at hc
      obtain ⟨j, _, rfl⟩ := hc
      by_cases hj0 : j = 0
      · rw [if_pos hj0]
      · rw [if_neg hj0])]
    have hvic : claimFAVictim
        ((List.range 512).map fun j =>
          if j = 0 then ((0 : Nat), (1 : Nat), true)
          else (j + 1, 513 - j, true)) 0 0 0 = 1 := by
      rcases claimFAVictim_spec
        ((List.range 512).map fun j =>
          if j = 0 then ((0 : Nat), (1 : Nat), true)
          else (j + 1, 513 - j, true)) 0 0 0 with
        ⟨_, h2⟩ | ⟨k, hk, h1, _, h3, _⟩
      · exfalso
        have := h2 1 (by simp)
        rw [rangeMap_getD, if_pos (by omega : (1 : Nat) < 512),
          if_neg (by omega : ¬(1 : Nat) = 0)] at this
        dsimp only at this
        omega
      · have hk512 : k < 512 := by simpa using hk
        have hc1 := h3 1 (by simp)
        rw [rangeMap_getD, rangeMap_getD, if_pos (by omega : (1 : Nat) < 512),
          if_neg (by omega : ¬(1 : Nat) = 0), if_pos hk512] at hc1
        dsimp only at hc1
        have hkz : k = 1 := by
          by_cases hk0 : k = 0
          · rw [if_pos hk0] at hc1
            dsimp only at hc1
            omega
          · rw [if_neg hk0] at hc1
            dsimp only at hc1
            omega
        rw [h1, hkz]
    rw [hvic, rangeMap_set _ _ _ _ (by omega : (1 : Nat) < 512)]
    refine congrArg (fun l => (l, (0 : Nat))) (List.map_congr_left ?_)
    intro j hj
    by_cases hj1 : j = 1
    · rw [if_pos hj1, if_neg (by omega), if_pos hj1]
    · rw [if_neg hj1]
      by_cases hj0 : j = 0
      · rw [if_pos hj0, if_pos hj0]
      · rw [if_neg hj0, if_neg hj0, if_neg hj1]
  have hcstep3 : (claimFAStep ((List.range 512).map fun j =>
      if j = 0 then ((0 : Nat), (1 : Nat), true)
      else if j = 1 then (600, 0, true) else (j + 1, 513 - j, true)) 0
      ⟨Op.load, 64⟩).2 = 0 := by
    have hne : ∀ c ∈ (List.range 512).map fun j =>
        if j = 0 then ((0 : Nat), (1 : Nat), true)
        else if j = 1 then (600, 0, true) else (j + 1, 513 - j, true),
        c.2.2 = true →
        c.1 ≠ (⟨Op.load, 64⟩ : Trace).addr >>> block_id_offset := by
      intro c hc _
      rw [List.mem_map] at hc
      obtain ⟨j, hj, rfl⟩ := hc
      rw [List.mem_range] at hj
      show _ ≠ (64 : Nat) >>> block_id_offset
      rw [show (64 : Nat) >>> block_id_offset = 2 from by decide]
      by_cases hj0 : j = 0
      · rw [if_pos hj0]
        simp
      · rw [if_neg hj0]
        by_cases hj1 : j = 1
        · rw [if_pos hj1]
          simp
        · rw [if_neg hj1]
          simp
          omega
    rw [claimFAStep_miss _ _ _ hne]
  have hclaim : (sim_fully_associative_claim c6trace).1 = 0 := by
    rw [sim_fa_claim_fst]
    rw [show c6trace = c6fill ++ c6tail from rfl, claimFARun_append,
      show claimFAInit = claimFillSt 0 from by decide, hfill_eq,
      claimFillRun 512 0 0 (by omega)]
    dsimp only
    rw [show c6tail = [⟨Op.load, 0⟩, ⟨Op.load, 19200⟩, ⟨Op.load, 64⟩] from rfl]
    rw [claimFARun_cons, hcstep1]
    dsimp only
    rw [claimFARun_cons, hcstep2]
    dsimp only
    rw [claimFARun_cons, claimFARun_nil]
    exact hcstep3
  exact ⟨hcode, hclaim, by rw [hcode, hclaim]; omega⟩

theorem anc_div : ∀ (k b : Nat), anc b k = (b + 1) / 2 ^ k - 1 := by
  intro k
  induction k with
  | zero => intro b; simp [anc]
  | succ k ih =>
    intro b
    show (anc b k - 1) / 2 = (b + 1) / 2 ^ (k + 1) - 1
    rw [ih b]
    have h1 : (b + 1) / 2 ^ (k + 1) = (b + 1) / 2 ^ k / 2 := by
      rw [pow_succ, Nat.div_div_eq_div_mul]
    rw [h1]
    omega

theorem anc_nine (L : Nat) (h1 : 511 ≤ L) (h2 : L ≤ 1022) : anc L 9 = 0 := by
  rw [anc_div]
  have h : (2 : Nat) ^ 9 = 512 := by norm_num
  rw [h]
  omega

theorem anc_ne_zero (L k : Nat) (h1 : 511 ≤ L) (hk : k < 9) :
    anc L k ≠ 0 := by
  rw [anc_div]
  have h2 : (2 : Nat) ^ k ≤ 256 := by
    calc (2 : Nat) ^ k ≤ 2 ^ 8 := Nat.pow_le_pow_right (by omega) (by omega)
    _ = 256 := by norm_num
  have h4 : 2 ≤ (L + 1) / 2 ^ k :=
    (Nat.le_div_iff_mul_le (Nat.pos_pow_of_pos k (by omega))).mpr (by omega)
  omega

theorem anc_shift : ∀ (k b : Nat), anc ((b - 1) / 2) k = anc b (k + 1) := by
  intro k
  induction k with
  | zero => intro b; rfl
  | succ k ih =>
    intro b
    show (anc ((b - 1) / 2) k - 1) / 2 = (anc b (k + 1) - 1) / 2
    rw [ih b]

theorem anc_lt_one (b k : Nat) (h2 : 2 ≤ k) (h1 : 1 ≤ anc b 1) :
    anc b k < anc b 1 := by
  have hm : (b + 1) / 2 ^ k ≤ (b + 1) / 2 ^ 2 :=
    Nat.div_le_div_left (Nat.pow_le_pow_right (by omega) h2)
      (Nat.pos_pow_of_pos 2 (by omega))
  simp only [anc_div] at h1 ⊢
  have e1 : (2 : Nat) ^ 1 = 2 := by norm_num
  have e2 : (2 : Nat) ^ 2 = 4 := by norm_num
  rw [e1] at h1 ⊢
  rw [e2] at hm
  omega

theorem plUpGo_succ (c : Nat → Nat) (f b : Nat) :
    plUpGo c (f + 1) b =
      (if (b - 1) / 2 = 0 then
        setNat c ((b - 1) / 2) (if b % 2 = 1 then 0 else 1)
      else
        plUpGo (setNat c ((b - 1) / 2) (if b % 2 = 1 then 0 else 1)) f
          ((b - 1) / 2)) := by
  conv_lhs => rw [plUpGo]

theorem plUpGo_spec :
    ∀ (d b : Nat) (c : Nat → Nat) (fuel : Nat),
      1 ≤ b → b ≤ fuel → anc b d = 0 → (∀ k, k < d → anc b k ≠ 0) →
      (∀ j, (∀ k, 1 ≤ k → k ≤ d → j ≠ anc b k) → plUpGo c fuel b j = c j) ∧
      (∀ k, 1 ≤ k → k ≤ d →
        plUpGo c fuel b (anc b k) =
          if anc b (k - 1) % 2 = 1 then 0 else 1) := by
  intro d
  induction d with
  | zero =>
    intro b c fuel hb _ hd _
    exact absurd hd (by show ¬b = 0; omega)
  | succ d ih =>
    intro b c fuel hb hfuel hd hk
    obtain ⟨f, rfl⟩ : ∃ f, fuel = f + 1 := ⟨fuel - 1, by omega⟩
    have hone : anc b 1 = (b - 1) / 2 := rfl
    have hb0 : anc b 0 = b := rfl
    by_cases hp : (b - 1) / 2 = 0
    · have hd0 : d = 0 := by
        by_contra hdne
        exact hk 1 (by omega) (by rw [hone]; exact hp)
      subst hd0
      have hres : plUpGo c (f + 1) b =
          setNat c ((b - 1) / 2) (if b % 2 = 1 then 0 else 1) := by
        rw [plUpGo_succ, if_pos hp]
      constructor
      · intro j hj
        rw [hres]
        have hj1 : j ≠ (b - 1) / 2 := by
          have := hj 1 (by omega) (by omega)
          rwa [hone] at this
        unfold setNat
        rw [if_neg hj1]
      · intro k hk1 hk2
        have hk1' : k = 1 := by omega
        subst hk1'
        rw [hres, hone]
        unfold setNat
        rw [if_pos rfl]
        norm_num
        rw [hb0]
    · have hd1 : 1 ≤ d := by
        by_contra hdne
        have hd0 : d = 0 := by omega
        subst hd0
        exact hp (by rw [← hone]; exact hd)
      have hres : plUpGo c (f + 1) b =
          plUpGo (setNat c ((b - 1) / 2) (if b % 2 = 1 then 0 else 1)) f
            ((b - 1) / 2) := by
        rw [plUpGo_succ, if_neg hp]
      have hpf : (b - 1) / 2 ≤ f := by omega
      have hanc : anc ((b - 1) / 2) d = 0 := by
        rw [anc_shift]
        exact hd
      have hancne : ∀ k, k < d → anc ((b - 1) / 2) k ≠ 0 := by
        intro k hkd
        rw [anc_shift]
        exact hk (k + 1) (by omega)
      obtain ⟨ihA, ihB⟩ := ih ((b - 1) / 2)
        (setNat c ((b - 1) / 2) (if b % 2 = 1 then 0 else 1)) f
        (by omega) hpf hanc hancne
      constructor
      · intro j hj
        rw [hres, ihA j (fun k hk1 hk2 => by
          rw [anc_shift]
          exact hj (k + 1) (by omega) (by omega))]
        unfold setNat
        rw [if_neg (by
          have := hj 1 (by omega) (by omega)
          rwa [hone] at this)]
      · intro k hk1 hk2
        match k, hk1 with
        | 1, _ =>
          rw [hres, hone]
          rw [ihA ((b - 1) / 2) (fun k' hk1' hk2' => by
            rw [anc_shift]
            have hlt := anc_lt_one b (k' + 1) (by omega)
              (by rw [hone]; omega)
            rw [hone] at hlt
            omega)]
          unfold setNat
          rw [if_pos rfl]
          norm_num
          rw [hb0]
        | k + 2, _ =>
          rw [hres]
          have hnode : anc b (k + 2) = anc ((b - 1) / 2) (k + 1) :=
            (anc_shift (k + 1) b).symm
          rw [hnode, ihB (k + 1) (by omega) (by omega), anc_shift]
          norm_num

theorem staleChild_ge (c : Nat → Nat) (n : Nat) : n + 1 ≤ staleChild c n := by
  unfold staleChild
  split <;> omega

theorem pathGo_succ (c : Nat → Nat) (f n : Nat) :
    pathGo c (f + 1) n =
      if n < 511 then n :: pathGo c f (staleChild c n) else [] := by
  conv_lhs => rw [pathGo]

theorem walkGo_succ (c : Nat → Nat) (f n : Nat) :
    walkGo c (f + 1) n =
      if n < 511 then walkGo c f (staleChild c n) else n := by
  conv_lhs => rw [walkGo]

theorem plDownGo_succ (c : Nat → Nat) (f n : Nat) :
    plDownGo c (f + 1) n =
      if n < 511 then
        plDownGo (setNat c n (flipBit (c n))) f
          (2 * n + (if flipBit (c n) = 0 then 1 else 2))
      else (c, n) := by
  conv_lhs => rw [plDownGo]

theorem stale_step (c : Nat → Nat) (n : Nat) :
    2 * n + (if flipBit (c n) = 0 then 1 else 2) = staleChild c n := by
  unfold flipBit staleChild
  by_cases h0 : c n = 0
  · rw [if_pos h0, if_pos h0]
    norm_num
  · rw [if_neg h0, if_neg h0]
    norm_num

theorem pathGo_ge :
    ∀ (f : Nat) (c : Nat → Nat) (n x : Nat), x ∈ pathGo c f n → n ≤ x := by
  intro f
  induction f with
  | zero => intro c n x hx; simp [pathGo] at hx
  | succ f ih =>
    intro c n x hx
    rw [pathGo_succ] at hx
    by_cases hn : n < 511
    · rw [if_pos hn] at hx
      rcases List.mem_cons.mp hx with rfl | hx2
      · exact le_refl x
      · have h1 := ih c (staleChild c n) x hx2
        have h2 := staleChild_ge c n
        omega
    · rw [if_neg hn] at hx
      simp at hx

theorem walk_update_irrel :
    ∀ (f : Nat) (c : Nat → Nat) (j v n : Nat), j < n →
      pathGo (setNat c j v) f n = pathGo c f n ∧
      walkGo (setNat c j v) f n = walkGo c f n := by
  intro f
  induction f with
  | zero => intro c j v n _; exact ⟨rfl, rfl⟩
  | succ f ih =>
    intro c j v n hj
    have hsc : staleChild (setNat c j v) n = staleChild c n := by
      unfold staleChild setNat
      rw [if_neg (by omega : ¬n = j)]
    rw [pathGo_succ, pathGo_succ, walkGo_succ, walkGo_succ, hsc]
    by_cases hn : n < 511
    · rw [if_pos hn, if_pos hn, if_pos hn, if_pos hn]
      have hnext := ih c j v (staleChild c n)
        (by have := staleChild_ge c n; omega)
      rw [hnext.1, hnext.2]
      exact ⟨rfl, rfl⟩
    · rw [if_neg hn, if_neg hn, if_neg hn, if_neg hn]
      exact ⟨rfl, rfl⟩

theorem plDownGo_spec :
    ∀ (f : Nat) (c : Nat → Nat) (n : Nat),
      (∀ j, (plDownGo c f n).1 j =
        if j ∈ pathGo c f n then flipBit (c j) else c j) ∧
      (plDownGo c f n).2 = walkGo c f n := by
  intro f
  induction f with
  | zero =>
    intro c n
    exact ⟨fun j => by simp [plDownGo, pathGo], by simp [plDownGo, walkGo]⟩
  | succ f ih =>
    intro c n
    by_cases hn : n < 511
    · have hstep : plDownGo c (f + 1) n =
          plDownGo (setNat c n (flipBit (c n))) f (staleChild c n) := by
        rw [plDownGo_succ, if_pos hn, stale_step]
      have hirr := walk_update_irrel f c n (flipBit (c n)) (staleChild c n)
        (by have := staleChild_ge c n; omega)
      obtain ⟨ihA, ihB⟩ := ih (setNat c n (flipBit (c n))) (staleChild c n)
      have hpath : pathGo c (f + 1) n = n :: pathGo c f (staleChild c n) := by
        rw [pathGo_succ, if_pos hn]
      have hwalk : walkGo c (f + 1) n = walkGo c f (staleChild c n) := by
        rw [walkGo_succ, if_pos hn]
      constructor
      · intro j
        rw [hstep, ihA j, hirr.1, hpath]
        by_cases hjn : j = n
        · subst hjn
          rw [if_neg (fun hmem => by
            have h1 := pathGo_ge f c (staleChild c j) j hmem
            have h2 := staleChild_ge c j
            omega)]
          rw [if_pos (List.mem_cons_self _ _)]
          unfold setNat
          rw [if_pos rfl]
        · have hsn : setNat c n (flipBit (c n)) j = c j := by
            unfold setNat
            rw [if_neg hjn]
          rw [hsn]
          by_cases hjm : j ∈ pathGo c f (staleChild c n)
          · rw [if_pos hjm, if_pos (List.mem_cons_of_mem n hjm)]
          · rw [if_neg hjm, if_neg (fun hmem => by
              rcases List.mem_cons.mp hmem with h | h
              · exact hjn h
              · exact hjm h)]
      · rw [hstep, ihB, hirr.2, hwalk]
    · have hstep : plDownGo c (f + 1) n = (c, n) := by
        rw [plDownGo_succ, if_neg hn]
      have hpath : pathGo c (f + 1) n = [] := by
        rw [pathGo_succ, if_neg hn]
      have hwalk : walkGo c (f + 1) n = n := by
        rw [walkGo_succ, if_neg hn]
      rw [hstep, hpath, hwalk]
      exact ⟨fun j => by simp, rfl⟩

theorem plFindGo_range :
    ∀ (fuel start : Nat) (c : Nat → Nat) (tag L : Nat),
      plFindGo c tag fuel start = some L → start ≤ L ∧ L < start + fuel := by
  intro fuel
  induction fuel with
  | zero => intro start c tag L h; exact absurd h (by simp [plFindGo])
  | succ fuel ih =>
    intro start c tag L h
    rw [show plFindGo c tag (fuel + 1) start =
        if c start = tag then some start
        else plFindGo c tag fuel (start + 1) from rfl] at h
    by_cases hc : c start = tag
    · rw [if_pos hc] at h
      injection h with h
      omega
    · rw [if_neg hc] at h
      have := ih (start + 1) c tag L h
      omega

/-- C7: in the pseudo-LRU engine a hit at a leaf L (the scanned leaves are
511..1022) rewrites exactly the bits of the ancestors anc L 1, ..., anc L 9
on the leaf-to-root path, setting each to 0 when the just-visited child is
odd and to 1 otherwise -- which makes each updated node's stale direction
point away from the just-visited child -- and leaves every other bit
unchanged; a miss descends from the root along the stale directions,
ending exactly at the leaf specWalk read off the unmodified bits, flips
exactly the visited internal nodes' bits (each flip turning the node's
stale direction away from the step just taken), and plStep installs the
new tag at that leaf on a miss while performing the hit update and
counting a hit when the scan finds the tag at a leaf in [511, 1022]. -/
theorem C7_pseudo_lru_tree_updates :
    (∀ (c : Nat → Nat) (L : Nat), 511 ≤ L → L ≤ 1022 →
      (∀ k, 1 ≤ k → k ≤ 9 →
        plHitUpdate c L (anc L k) =
          (if anc L (k - 1) % 2 = 1 then 0 else 1) ∧
        staleChild (plHitUpdate c L) (anc L k) ≠ anc L (k - 1)) ∧
      (∀ j, (∀ k, 1 ≤ k → k ≤ 9 → j ≠ anc L k) →
        plHitUpdate c L j = c j)) ∧
    (∀ c : Nat → Nat,
      (plDescendFull c).2 = specWalk c ∧
      (∀ j, (plDescendFull c).1 j =
        if j ∈ specPath c then flipBit (c j) else c j) ∧
      (∀ n, n ∈ specPath c →
        staleChild (plDescendFull c).1 n ≠ staleChild c n)) ∧
    (∀ (c : Nat → Nat) (hits : Nat) (t : Trace),
      (plFindGo c (t.addr >>> block_id_offset) 512 511 = none →
        plStep c hits t =
          (setNat (plDescendFull c).1 (specWalk c)
            (t.addr >>> block_id_offset), hits)) ∧
      (∀ L, plFindGo c (t.addr >>> block_id_offset) 512 511 = some L →
        511 ≤ L ∧ L ≤ 1022 ∧ plStep c hits t = (plHitUpdate c L, hits + 1))) := by
  refine ⟨?_, ?_, ?_⟩
  · intro c L h511 h1022
    have h9 : anc L 9 = 0 := anc_nine L h511 h1022
    have hne : ∀ k, k < 9 → anc L k ≠ 0 := fun k hk => anc_ne_zero L k h511 hk
    obtain ⟨hA, hB⟩ := plUpGo_spec 9 L c L (by omega) (le_refl L) h9 hne
    constructor
    · intro k hk1 hk9
      have hv : plHitUpdate c L (anc L k) =
          if anc L (k - 1) % 2 = 1 then 0 else 1 := hB k hk1 hk9
      refine ⟨hv, ?_⟩
      have hchild : anc L k = (anc L (k - 1) - 1) / 2 := by
        have h : anc L ((k - 1) + 1) = (anc L (k - 1) - 1) / 2 := rfl
        rw [show (k - 1) + 1 = k from by omega] at h
        exact h
      have hcne : anc L (k - 1) ≠ 0 := hne (k - 1) (by omega)
      by_cases hm : anc L (k - 1) % 2 = 1
      · rw [if_pos hm] at hv
        unfold staleChild
        rw [hv, if_pos rfl]
        omega
      · rw [if_neg hm] at hv
        unfold staleChild
        rw [hv, if_neg (by omega)]
        omega
    · intro j hj
      exact hA j hj
  · intro c
    obtain ⟨hA, hB⟩ := plDownGo_spec 511 c 0
    refine ⟨hB, fun j => hA j, ?_⟩
    intro n hn
    have hn' : n ∈ pathGo c 511 0 := hn
    have h1 : (plDescendFull c).1 n = flipBit (c n) := by
      show (plDownGo c 511 0).1 n = flipBit (c n)
      rw [hA n, if_pos hn']
    unfold staleChild
    rw [h1]
    unfold flipBit
    by_cases h0 : c n = 0
    · rw [if_pos h0, if_pos h0, if_neg (by omega)]
      omega
    · rw [if_neg h0, if_neg h0, if_pos rfl]
      omega
  · intro c hits t
    constructor
    · intro hnone
      have hw : (plDescendFull c).2 = specWalk c := (plDownGo_spec 511 c 0).2
      unfold plStep
      dsimp only
      rw [hnone]
      dsimp only
      rw [hw]
    · intro L hL
      have hrange := plFindGo_range 512 511 c (t.addr >>> block_id_offset) L hL
      refine ⟨hrange.1, by omega, ?_⟩
      unfold plStep
      dsimp only
      rw [hL]

/-- Witness for C7 at the all-zero tree with hit leaf 600: at the
ancestor anc 600 3 = 74 the just-visited child anc 600 2 = 149 is odd,
so the hit update writes bit 0 there. -/
theorem C7_pseudo_lru_tree_updates_witness :
    plHitUpdate (fun _ => 0) 600 74 = 0 := by
  have h := ((C7_pseudo_lru_tree_updates.1 (fun _ => 0) 600 (by decide)
    (by decide)).1 3 (by decide) (by decide)).1
  have e1 : anc 600 3 = 74 := by decide
  have e2 : anc 600 (3 - 1) = 149 := by decide
  rw [e1, e2] at h
  exact h.trans (by decide)

theorem mylog2Go_bounds :
    ∀ (fuel n : Nat), 1 ≤ n → n ≤ 2 ^ fuel →
      2 ^ mylog2Go fuel n ≤ n ∧ n < 2 ^ (mylog2Go fuel n + 1) := by
  intro fuel
  induction fuel with
  | zero =>
    intro n h1 h2
    have hn : n = 1 := by
      have h0 : (2 : Nat) ^ 0 = 1 := by norm_num
      omega
    subst hn
    exact ⟨by simp [mylog2Go], by simp [mylog2Go]⟩
  | succ fuel ih =>
    intro n h1 h2
    by_cases hsmall : n ≤ 1
    · have hn : n = 1 := by omega
      subst hn
      rw [show mylog2Go (fuel + 1) 1 = 0 from by rw [mylog2Go]; simp]
      norm_num
    · have hrec : mylog2Go (fuel + 1) n = mylog2Go fuel (n / 2) + 1 := by
        rw [mylog2Go]
        rw [if_neg hsmall]
      have h1' : 1 ≤ n / 2 := by omega
      have h2' : n / 2 ≤ 2 ^ fuel := by
        have hp : (2 : Nat) ^ (fuel + 1) = 2 * 2 ^ fuel := by ring
        omega
      obtain ⟨ihA, ihB⟩ := ih (n / 2) h1' h2'
      rw [hrec]
      have e1 : (2 : Nat) ^ (mylog2Go fuel (n / 2) + 1) =
          2 * 2 ^ mylog2Go fuel (n / 2) := by ring
      have e2 : (2 : Nat) ^ (mylog2Go fuel (n / 2) + 1 + 1) =
          2 * 2 ^ (mylog2Go fuel (n / 2) + 1) := by ring
      omega

theorem mylog2_bounds (n : Nat) (h : 1 ≤ n) :
    2 ^ mylog2 n ≤ n ∧ n < 2 ^ (mylog2 n + 1) :=
  mylog2Go_bounds n n h (Nat.le_of_lt (Nat.lt_two_pow n))

theorem mylog2_mono (a b : Nat) (ha : 1 ≤ a) (hab : a ≤ b) :
    mylog2 a ≤ mylog2 b := by
  obtain ⟨hA, _⟩ := mylog2_bounds a ha
  obtain ⟨_, hB⟩ := mylog2_bounds b (by omega)
  by_contra hlt
  push_neg at hlt
  have hpow : 2 ^ (mylog2 b + 1) ≤ 2 ^ mylog2 a :=
    Nat.pow_le_pow_right (by omega) (by omega)
  omega

theorem mylog2_le_31 (n : Nat) (h : n < 2 ^ 32) : mylog2 n ≤ 31 := by
  by_cases h1 : 1 ≤ n
  · obtain ⟨hA, _⟩ := mylog2_bounds n h1
    by_contra hc
    push_neg at hc
    have hpow : (2 : Nat) ^ 32 ≤ 2 ^ mylog2 n :=
      Nat.pow_le_pow_right (by omega) (by omega)
    omega
  · have hn : n = 0 := by omega
    subst hn
    exact (by decide : mylog2 0 ≤ 31)

theorem mylog2_ge_5 (n : Nat) (h : 32 ≤ n) : 5 ≤ mylog2 n := by
  obtain ⟨_, hB⟩ := mylog2_bounds n (by omega)
  by_contra hc
  push_neg at hc
  have hpow : 2 ^ (mylog2 n + 1) ≤ (2 : Nat) ^ 5 :=
    Nat.pow_le_pow_right (by omega) (by omega)
  have h5 : (2 : Nat) ^ 5 = 32 := by norm_num
  omega

theorem bitmask_pow (r : Nat) (h : mylog2 r ≤ 32) :
    bitmask r = 2 ^ mylog2 r - 1 := by
  unfold bitmask
  rw [Nat.shiftLeft_eq]
  have hE1 : 1 ≤ 2 ^ mylog2 r := Nat.one_le_two_pow
  have hE2 : 2 ^ mylog2 r ≤ 2 ^ 32 := Nat.pow_le_pow_right (by omega) h
  have h32 : (2 : Nat) ^ 32 = 4294967296 := by norm_num
  rw [h32] at hE2 ⊢
  omega

theorem shr10_div (a : Nat) : a >>> 10 = (a >>> 5) / 32 := by
  rw [Nat.shiftRight_eq_div_pow, Nat.shiftRight_eq_div_pow,
    Nat.div_div_eq_div_mul]

theorem mod_div_unique (e x y : Nat) (he : 5 ≤ e) (hd : x / 32 = y / 32)
    (hm : x % 2 ^ e = y % 2 ^ e) : x = y := by
  have h32 : (32 : Nat) ∣ 2 ^ e := by
    refine ⟨2 ^ (e - 5), ?_⟩
    rw [show (32 : Nat) = 2 ^ 5 from by norm_num, ← pow_add]
    congr 1
    omega
  have hx := Nat.mod_mod_of_dvd x h32
  have hy := Nat.mod_mod_of_dvd y h32
  omega

theorem mod_proj (e1 e2 x y : Nat) (h : e1 ≤ e2)
    (hm : x % 2 ^ e2 = y % 2 ^ e2) : x % 2 ^ e1 = y % 2 ^ e1 := by
  have hdvd : (2 : Nat) ^ e1 ∣ 2 ^ e2 := pow_dvd_pow 2 h
  calc x % 2 ^ e1 = x % 2 ^ e2 % 2 ^ e1 := (Nat.mod_mod_of_dvd x hdvd).symm
  _ = y % 2 ^ e2 % 2 ^ e1 := by rw [hm]
  _ = y % 2 ^ e1 := Nat.mod_mod_of_dvd y hdvd

theorem dmGo_cons (mask : Nat) (st : Nat → Nat) (hits : Nat) (t : Trace)
    (ts : List Trace) :
    dmGo mask st hits (t :: ts) =
      if st ((t.addr >>> block_id_offset) &&& mask) = t.addr >>> 10 then
        dmGo mask st (hits + 1) ts
      else
        dmGo mask (setNat st ((t.addr >>> block_id_offset) &&& mask)
          (t.addr >>> 10)) hits ts := by
  conv_lhs => rw [dmGo]

theorem dmGo_mono_aux :
    ∀ (ts : List Trace) (e1 e2 : Nat) (s b : Nat → Nat) (h1 h2 : Nat),
      5 ≤ e1 → e1 ≤ e2 →
      (∀ addr : Nat, s ((addr >>> 5) % 2 ^ e1) = addr >>> 10 →
        b ((addr >>> 5) % 2 ^ e2) = addr >>> 10) →
      h1 ≤ h2 →
      dmGo (2 ^ e1 - 1) s h1 ts ≤ dmGo (2 ^ e2 - 1) b h2 ts := by
  intro ts
  induction ts with
  | nil =>
    intro e1 e2 s b h1 h2 _ _ _ hh
    simpa [dmGo] using hh
  | cons t ts ih =>
    intro e1 e2 s b h1 h2 he5 he12 hinv hh
    rw [dmGo_cons, dmGo_cons]
    simp only [block_id_offset, Nat.and_pow_two_sub_one_eq_mod]
    by_cases hs : s ((t.addr >>> 5) % 2 ^ e1) = t.addr >>> 10
    · rw [if_pos hs, if_pos (hinv t.addr hs)]
      exact ih e1 e2 s b (h1 + 1) (h2 + 1) he5 he12 hinv (by omega)
    · rw [if_neg hs]
      by_cases hb : b ((t.addr >>> 5) % 2 ^ e2) = t.addr >>> 10
      · rw [if_pos hb]
        refine ih e1 e2 _ b h1 (h2 + 1) he5 he12 ?_ (by omega)
        intro addr haddr
        by_cases hj : (addr >>> 5) % 2 ^ e1 = (t.addr >>> 5) % 2 ^ e1
        · have hT : t.addr >>> 10 = addr >>> 10 := by
            have h' := haddr
            unfold setNat at h'
            rw [if_pos hj] at h'
            exact h'
          have heq : addr >>> 5 = t.addr >>> 5 := by
            refine mod_div_unique e1 _ _ he5 ?_ hj
            rw [← shr10_div, ← shr10_div]
            exact hT.symm
          rw [heq, hb]
          exact hT
        · have hs' : s ((addr >>> 5) % 2 ^ e1) = addr >>> 10 := by
            have h' := haddr
            unfold setNat at h'
            rw [if_neg hj] at h'
            exact h'
          exact hinv addr hs'
      · rw [if_neg hb]
        refine ih e1 e2 _ _ h1 h2 he5 he12 ?_ hh
        intro addr haddr
        by_cases hj : (addr >>> 5) % 2 ^ e1 = (t.addr >>> 5) % 2 ^ e1
        · have hT : t.addr >>> 10 = addr >>> 10 := by
            have h' := haddr
            unfold setNat at h'
            rw [if_pos hj] at h'
            exact h'
          have heq : addr >>> 5 = t.addr >>> 5 := by
            refine mod_div_unique e1 _ _ he5 ?_ hj
            rw [← shr10_div, ← shr10_div]
            exact hT.symm
          unfold setNat
          rw [heq, if_pos rfl]
          exact hT
        · have hs' : s ((addr >>> 5) % 2 ^ e1) = addr >>> 10 := by
            have h' := haddr
            unfold setNat at h'
            rw [if_neg hj] at h'
            exact h'
          have hj2 : (addr >>> 5) % 2 ^ e2 ≠ (t.addr >>> 5) % 2 ^ e2 :=
            fun hmem => hj (mod_proj e1 e2 _ _ he12 hmem)
          unfold setNat
          rw [if_neg hj2]
          exact hinv addr hs'

theorem dmAbs_write (c : Cache) (i v : Nat) :
    dmAbs (setCache c i
      { c i with tags := setNat (c i).tags 0 v }) =
      setNat (dmAbs c) i v := by
  funext j
  unfold dmAbs setCache setNat
  by_cases hj : j = i
  · rw [if_pos hj, if_pos hj]
    simp
  · rw [if_neg hj, if_neg hj]

theorem simSAGo_one_eq_dmGo :
    ∀ (ts : List Trace) (kb : Nat) (opts : Options) (c : Cache) (hits : Nat),
      simSAGo kb 1 opts c hits ts = dmGo (saMask kb 1) (dmAbs c) hits ts := by
  intro ts
  induction ts with
  | nil => intro kb opts c hits; rfl
  | cons t ts ih =>
    intro kb opts c hits
    rw [simSAGo_cons, dmGo_cons]
    have hstep : simSAStep kb 1 opts c hits t =
        if (c (saIndex kb 1 t.addr)).tags 0 = dmTag t.addr then (c, hits + 1)
        else
          (setCache c (saIndex kb 1 t.addr)
            { c (saIndex kb 1 t.addr) with
              tags := setNat (c (saIndex kb 1 t.addr)).tags 0 (dmTag t.addr) },
           hits) := by
      unfold simSAStep
      dsimp only
      rw [if_pos rfl]
    by_cases hhit : (c (saIndex kb 1 t.addr)).tags 0 = dmTag t.addr
    · rw [hstep, if_pos hhit]
      have hcond : dmAbs c ((t.addr >>> block_id_offset) &&& saMask kb 1) =
          t.addr >>> 10 := hhit
      rw [if_pos hcond]
      exact ih kb opts c (hits + 1)
    · rw [hstep, if_neg hhit]
      have hcond : ¬dmAbs c ((t.addr >>> block_id_offset) &&& saMask kb 1) =
          t.addr >>> 10 := hhit
      rw [if_neg hcond]
      rw [ih kb opts _ hits]
      rw [show (setCache c (saIndex kb 1 t.addr)
        { c (saIndex kb 1 t.addr) with
          tags := setNat (c (saIndex kb 1 t.addr)).tags 0 (dmTag t.addr) },
        hits).1 = setCache c (saIndex kb 1 t.addr)
        { c (saIndex kb 1 t.addr) with
          tags := setNat (c (saIndex kb 1 t.addr)).tags 0 (dmTag t.addr) }
        from rfl]
      rw [dmAbs_write]
      rfl

theorem simSAStep_kb_indep (kb1 kb2 ways : Nat) (opts : Options) (c : Cache)
    (hits : Nat) (t : Trace) (hw : ways ≠ 1) :
    simSAStep kb1 ways opts c hits t = simSAStep kb2 ways opts c hits t := by
  have hm : saMask kb1 ways = saMask kb2 ways := by
    unfold saMask
    rw [if_neg hw, if_neg hw]
  have hi : ∀ a, saIndex kb1 ways a = saIndex kb2 ways a := by
    intro a
    unfold saIndex
    rw [hm]
  unfold simSAStep
  dsimp only
  rw [if_neg hw, if_neg hw, hi t.addr, hi (t.addr + 32)]

theorem simSAGo_kb_indep :
    ∀ (ts : List Trace) (kb1 kb2 ways : Nat) (opts : Options) (c : Cache)
      (hits : Nat), ways ≠ 1 →
      simSAGo kb1 ways opts c hits ts = simSAGo kb2 ways opts c hits ts := by
  intro ts
  induction ts with
  | nil => intro kb1 kb2 ways opts c hits _; rfl
  | cons t ts ih =>
    intro kb1 kb2 ways opts c hits hw
    rw [simSAGo_cons, simSAGo_cons, simSAStep_kb_indep kb1 kb2 ways opts c hits t hw]
    exact ih kb1 kb2 ways opts _ _ hw

/-- C10: for a fixed trace, fixed options and fixed ways, increasing the
configured totalSizeKB never decreases the final hit count of the
counter-based LRU set-associative engine, for every configured size whose
byte count fits the unsigned 32-bit arithmetic of the mask computation.
For ways >= 2 the engine ignores the configured size entirely (the hit
counts are equal); for ways = 1 the direct-mapped compare-or-replace
engine with the larger power-of-two set count simulates an inclusion of
the smaller one: whenever the small cache holds a block, the big cache
holds it too, because the index bits of the small cache are a suffix of
those of the big cache and index plus the fixed tag addr >> 10 determine
the block address once the mask has at least 5 bits (which holds for
every totalSizeKB >= 1). -/
theorem C10_size_monotonicity (traces : List Trace) (opts : Options)
    (ways kb1 kb2 : Nat) (hw : 1 ≤ ways) (hkb : 1 ≤ kb1) (h12 : kb1 ≤ kb2)
    (hfit : kb2 * 1024 < 2 ^ 32) :
    (sim_set_associative kb1 ways opts traces).1 ≤
      (sim_set_associative kb2 ways opts traces).1 := by
  have hfst : ∀ kb, (sim_set_associative kb ways opts traces).1 =
      simSAGo kb ways opts cache0 0 traces := fun kb => rfl
  rw [hfst kb1, hfst kb2]
  by_cases hone : ways = 1
  · subst hone
    rw [simSAGo_one_eq_dmGo, simSAGo_one_eq_dmGo]
    have hmask : ∀ kb, 1 ≤ kb → kb * 1024 < 2 ^ 32 →
        saMask kb 1 = 2 ^ mylog2 (kb * 32) - 1 := by
      intro kb h1 h2
      unfold saMask
      rw [if_pos rfl, Nat.mod_eq_of_lt h2,
        show kb * 1024 / 32 = kb * 32 from by omega]
      refine bitmask_pow (kb * 32) ?_
      have h31 := mylog2_le_31 (kb * 32) (by omega)
      omega
    rw [hmask kb1 hkb (by omega), hmask kb2 (by omega) hfit]
    refine dmGo_mono_aux traces (mylog2 (kb1 * 32)) (mylog2 (kb2 * 32))
      (dmAbs cache0) (dmAbs cache0) 0 0
      (mylog2_ge_5 (kb1 * 32) (by omega))
      (mylog2_mono (kb1 * 32) (kb2 * 32) (by omega) (by omega)) ?_ (le_refl 0)
    intro addr h
    simpa [dmAbs, cache0] using h
  · rw [simSAGo_kb_indep traces kb1 kb2 ways opts cache0 0 hone]

/-- Witness for C10 at a one-access trace, ways = 1, sizes 1 KB and 4 KB. -/
theorem C10_size_monotonicity_witness :
    1 ≤ 1 ∧ (1 : Nat) ≤ 4 ∧ 4 * 1024 < 2 ^ 32 ∧
    (sim_set_associative 1 1 Options.optNone [⟨Op.load, 0x1234⟩]).1 ≤
      (sim_set_associative 4 1 Options.optNone [⟨Op.load, 0x1234⟩]).1 :=
  ⟨by decide, by decide, by decide,
   C10_size_monotonicity [⟨Op.load, 0x1234⟩] Options.optNone 1 1 4
     (by decide) (by decide) (by decide) (by decide)⟩
